import Mathlib

set_option maxHeartbeats 1000000
set_option maxRecDepth 4000

-- Shallow embedding of the structured-logging encoder in json.go.
-- Byte strings are modelled as List Nat (each element one byte value).
-- External collaborators (the sink, the clock, runtime.Caller, json.Marshal,
-- time.AppendFormat, runtime.Stack) are modelled as explicit inputs; the
-- write function bound to an Event is modelled by having the terminal calls
-- return the list of byte buffers they would write, in order.

/-- Modelled from the spec: the severity Level type and its five constants are
defined outside src/ (only json.go is given); the spec describes an ordered
integer enumeration Debug < Info < Warn < Error < Fatal. -/
abbrev Level := Nat

-- Aliases used inside the Event and Logger namespaces, where some method
-- names of the source (Bool, Int, Level) shadow the root types.
abbrev GoBool := Bool

abbrev GoInt := Int

/-- Modelled from the spec: lowest severity. -/
def DebugLevel : Level := 0

/-- Modelled from the spec. -/
def InfoLevel : Level := 1

/-- Modelled from the spec. -/
def WarnLevel : Level := 2

/-- Modelled from the spec. -/
def ErrorLevel : Level := 3

/-- Modelled from the spec: highest severity, triggers the fatal path. -/
def FatalLevel : Level := 4

/-- The UTC clock readings of a Go time.Time value, as returned by its
Year, Month, Day, Hour, Minute, Second and Nanosecond accessors after the
UTC() normalization done at the top of the source Event.time method. -/
structure GoTime where
  year : Nat
  month : Nat
  day : Nat
  hour : Nat
  minute : Nat
  second : Nat
  nanosecond : Nat
deriving DecidableEq, Repr

-- The safeSet table from json.go: true for ASCII bytes 0x20..0x7F except
-- the double quote (34) and the backslash (92); false for control bytes.
def safeSet (b : Nat) : Bool :=
  decide ((32 ≤ b ∧ b ≤ 127) ∧ b ≠ 34 ∧ b ≠ 92)

-- The htmlSafeSet table from json.go: safeSet minus the three bytes that
-- are unsafe inside HTML script contexts: 60, 62, 38.
def htmlSafeSet (b : Nat) : Bool :=
  safeSet b && decide (b ≠ 60 ∧ b ≠ 62 ∧ b ≠ 38)

-- hex digit table from json.go: the characters of 0123456789abcdef.
def hexDig (n : Nat) : Nat :=
  if n < 10 then 48 + n else 87 + n

-- The accept ranges of Go unicode/utf8 for the first continuation byte,
-- selected by the leading byte, as used by utf8.DecodeRuneInString.
def acceptRange (b0 : Nat) : Nat × Nat :=
  if b0 = 0xE0 then (0xA0, 0xBF)
  else if b0 = 0xED then (0x80, 0x9F)
  else if b0 = 0xF0 then (0x90, 0xBF)
  else if b0 = 0xF4 then (0x80, 0x8F)
  else (0x80, 0xBF)

-- Go utf8.DecodeRuneInString on a byte list: returns the decoded code point
-- and the number of bytes consumed; every malformed prefix (bad leading
-- byte, out-of-range continuation byte, overlong form, surrogate, value
-- above 0x10FFFF, or truncated sequence) yields (0xFFFD, 1).
def decodeRuneInString : List Nat → Nat × Nat
  | [] => (0xFFFD, 0)
  | b0 :: rest =>
    if b0 < 0x80 then (b0, 1)
    else if b0 < 0xC2 then (0xFFFD, 1)
    else if b0 ≤ 0xDF then
      match rest with
      | b1 :: _ =>
        if (acceptRange b0).1 ≤ b1 ∧ b1 ≤ (acceptRange b0).2 then
          ((b0 % 32) * 64 + b1 % 64, 2)
        else (0xFFFD, 1)
      | [] => (0xFFFD, 1)
    else if b0 ≤ 0xEF then
      match rest with
      | b1 :: b2 :: _ =>
        if ((acceptRange b0).1 ≤ b1 ∧ b1 ≤ (acceptRange b0).2) ∧
            (0x80 ≤ b2 ∧ b2 ≤ 0xBF) then
          ((b0 % 16) * 4096 + (b1 % 64) * 64 + b2 % 64, 3)
        else (0xFFFD, 1)
      | _ => (0xFFFD, 1)
    else if b0 ≤ 0xF4 then
      match rest with
      | b1 :: b2 :: b3 :: _ =>
        if ((acceptRange b0).1 ≤ b1 ∧ b1 ≤ (acceptRange b0).2) ∧
            (0x80 ≤ b2 ∧ b2 ≤ 0xBF) ∧ (0x80 ≤ b3 ∧ b3 ≤ 0xBF) then
          ((b0 % 8) * 262144 + (b1 % 64) * 4096 + (b2 % 64) * 64 + b3 % 64, 4)
        else (0xFFFD, 1)
      | _ => (0xFFFD, 1)
    else (0xFFFD, 1)

-- The loop body of the source Event.string escaper.  The source batches
-- the verbatim copies of safe spans through a start index; here each safe
-- byte is emitted directly, which produces the identical byte sequence.
-- The first argument is fuel; one unit is spent per decoded unit, and the
-- loop consumes at least one input byte per unit, so fuel equal to the
-- input length (as supplied by the stringBytes wrapper below) is exact.
def stringLoop (escapeHTML : Bool) : Nat → List Nat → List Nat
  | _, [] => []
  | 0, _ :: _ => []
  | fuel + 1, b :: rest =>
    if b < 0x80 then
      (if htmlSafeSet b || (!escapeHTML && safeSet b) then [b]
       else if b = 92 ∨ b = 34 then [92, b]
       else if b = 10 then [92, 110]
       else if b = 13 then [92, 114]
       else if b = 9 then [92, 116]
       else [92, 117, 48, 48, hexDig (b / 16), hexDig (b % 16)]) ++
        stringLoop escapeHTML fuel rest
    else
      let cs := decodeRuneInString (b :: rest)
      if cs.1 = 0xFFFD ∧ cs.2 = 1 then
        [92, 117, 102, 102, 102, 100] ++ stringLoop escapeHTML fuel rest
      else if cs.1 = 0x2028 ∨ cs.1 = 0x2029 then
        [92, 117, 50, 48, 50, hexDig (cs.1 % 16)] ++
          stringLoop escapeHTML fuel ((b :: rest).drop cs.2)
      else
        (b :: rest).take cs.2 ++ stringLoop escapeHTML fuel ((b :: rest).drop cs.2)

-- The bytes the source Event.string method appends for a value: an opening
-- quote, the escaped body, a closing quote.
def stringBytes (value : List Nat) (escapeHTML : Bool) : List Nat :=
  34 :: stringLoop escapeHTML value.length value ++ [34]

-- Decimal digits of a natural number, as produced by strconv; fueled for
-- kernel reducibility (the fuel n + 1 always suffices).
def natDigitsF : Nat → Nat → List Nat
  | 0, _ => []
  | fuel + 1, n => if n < 10 then [48 + n] else natDigitsF fuel (n / 10) ++ [48 + n % 10]

def natDigits (n : Nat) : List Nat := natDigitsF (n + 1) n

-- strconv.AppendInt base 10 on an int64 value.
def appendInt (i : Int) : List Nat :=
  if i < 0 then 45 :: natDigits i.natAbs else natDigits i.natAbs

-- strconv.AppendBool.
def boolBytes (b : Bool) : List Nat :=
  if b then [116, 114, 117, 101] else [102, 97, 108, 115, 101]

-- Go byte conversion: truncation to 8 bits.
def byteOf (n : Nat) : Nat := n % 256

-- The template the source Event.time appends before overwriting digit
-- positions: the bytes of the literal 2006-01-02T15:04:05.999Z in quotes.
def timeTemplate : List Nat :=
  [34, 50, 48, 48, 54, 45, 48, 49, 45, 48, 50, 84, 49, 53, 58,
   48, 52, 58, 48, 53, 46, 57, 57, 57, 90, 34]

-- The source Event.time fast timestamp formatter: append the template once,
-- then overwrite fixed offsets with computed digits, in source order.
def Event.time (now : GoTime) : List Nat :=
  let buf0 := timeTemplate
  let a := now.year
  let b := a / 10
  let buf1 := buf0.set 4 (byteOf (48 + a - 10 * b))
  let a := b
  let b := a / 10
  let buf2 := buf1.set 3 (byteOf (48 + a - 10 * b))
  let a := b
  let b := a / 10
  let buf3 := (buf2.set 2 (byteOf (48 + a - 10 * b))).set 1 (byteOf (48 + b))
  let a := now.month
  let b := a / 10
  let buf4 := (buf3.set 7 (byteOf (48 + a - 10 * b))).set 6 (byteOf (48 + b))
  let a := now.day
  let b := a / 10
  let buf5 := (buf4.set 10 (byteOf (48 + a - 10 * b))).set 9 (byteOf (48 + b))
  let a := now.hour
  let b := a / 10
  let buf6 := (buf5.set 13 (byteOf (48 + a - 10 * b))).set 12 (byteOf (48 + b))
  let a := now.minute
  let b := a / 10
  let buf7 := (buf6.set 16 (byteOf (48 + a - 10 * b))).set 15 (byteOf (48 + b))
  let a := now.second
  let b := a / 10
  let buf8 := (buf7.set 19 (byteOf (48 + a - 10 * b))).set 18 (byteOf (48 + b))
  let a := now.nanosecond / 1000000
  let b := a / 10
  let buf9 := buf8.set 23 (byteOf (48 + a - 10 * b))
  let a := b
  let b := a / 10
  ((buf9.set 22 (byteOf (48 + a - 10 * b))).set 21 (byteOf (48 + b)))

-- strings.LastIndex(file, slash) followed by file[i+1:]: keep the part of
-- the path after the last slash (byte 47); the whole path if none.
def lastSegment (f : List Nat) : List Nat :=
  (f.reverse.takeWhile (fun b => b ≠ 47)).reverse

-- The bytes the source Event.caller helper appends, given the result of the
-- external runtime.Caller call (none when it reports failure).
def callerBytes (ci : Option (List Nat × Int)) : List Nat :=
  let fl : List Nat × Int :=
    match ci with
    | none => ([63, 63, 63], 1)
    | some (f, ln) => (lastSegment f, ln)
  let line : Int := if fl.2 < 0 then 0 else fl.2
  [44, 34, 99, 97, 108, 108, 101, 114, 34, 58, 34] ++ fl.1 ++ [58] ++
    appendInt line ++ [34]

/-- The Event builder; the write function bound from the Logger is not a
field here: the terminal calls instead return the buffers they write. -/
structure Event where
  buf : List Nat
  fatal : Bool
  escapeHTML : Bool
  timeFormat : List Nat
deriving DecidableEq, Repr

-- The source Event.key helper: append the separator byte, a quote, the raw
-- key bytes, a quote, and a colon.
def Event.key (b : Nat) (k : List Nat) : List Nat :=
  b :: 34 :: (k ++ [34, 58])

/-- The Logger configuration; the io.Writer sink is external and is modelled
by the terminal calls returning the written buffers. -/
structure Logger where
  Level : Nat
  Caller : Bool
  EscapeHTML : Bool
  TimeField : List Nat
  TimeFormat : List Nat
deriving DecidableEq, Repr

-- The level switch in the source WithLevel: one fixed tag per known level,
-- nothing for a level outside the enumeration.
def levelTag (level : Level) : List Nat :=
  if level = DebugLevel then
    [44, 34, 108, 101, 118, 101, 108, 34, 58, 34, 100, 101, 98, 117, 103, 34]
  else if level = InfoLevel then
    [44, 34, 108, 101, 118, 101, 108, 34, 58, 34, 105, 110, 102, 111, 34]
  else if level = WarnLevel then
    [44, 34, 108, 101, 118, 101, 108, 34, 58, 34, 119, 97, 114, 110, 34]
  else if level = ErrorLevel then
    [44, 34, 108, 101, 118, 101, 108, 34, 58, 34, 101, 114, 114, 111, 114, 34]
  else if level = FatalLevel then
    [44, 34, 108, 101, 118, 101, 108, 34, 58, 34, 102, 97, 116, 97, 108, 34]
  else []

-- The default time field header: the bytes of an opening brace followed by
-- a quoted time key and a colon.
def defaultTimeHeader : List Nat :=
  [123, 34, 116, 105, 109, 101, 34, 58]

-- The source Logger.WithLevel: gate on the minimum level, then build the
-- header (time, level, optional caller) in a fresh buffer.  The current
-- clock reading, the runtime.Caller result and the external
-- time.AppendFormat formatter (used only for a custom TimeFormat) are
-- passed as inputs.
def Logger.WithLevel (l : Logger) (level : Nat) (now : GoTime)
    (ci : Option (List Nat × Int)) (afmt : List Nat → GoTime → List Nat) :
    Option Event :=
  if level < l.Level then none
  else
    let buf1 := if l.TimeField = [] then defaultTimeHeader else Event.key 123 l.TimeField
    let buf2 := buf1 ++
      (if l.TimeFormat = [] then Event.time now else 34 :: (afmt l.TimeFormat now ++ [34]))
    let buf3 := buf2 ++ levelTag level
    let buf4 := buf3 ++ (if l.Caller then callerBytes ci else [])
    some { buf := buf4, fatal := level == FatalLevel,
           escapeHTML := l.EscapeHTML, timeFormat := l.TimeFormat }

-- Field-append methods.  A nil receiver in Go is the none case; every
-- method returns its receiver unchanged in that case.

def Event.Time (e : Option Event) (k : List Nat) (t : GoTime)
    (afmt : List Nat → GoTime → List Nat) : Option Event :=
  match e with
  | none => none
  | some ev =>
    some { ev with buf := (ev.buf ++ Event.key 44 k ++
      (if ev.timeFormat = [] then Event.time t
       else 34 :: (afmt ev.timeFormat t ++ [34]))) }

def Event.Timestamp (e : Option Event) (unixNow : GoInt) : Option Event :=
  match e with
  | none => none
  | some ev =>
    some { ev with buf := (ev.buf ++
      Event.key 44 [116, 105, 109, 101, 115, 116, 97, 109, 112] ++ appendInt unixNow) }

def Event.Bool (e : Option Event) (k : List Nat) (b : GoBool) : Option Event :=
  match e with
  | none => none
  | some ev => some { ev with buf := ev.buf ++ Event.key 44 k ++ boolBytes b }

def Event.Bools (e : Option Event) (k : List Nat) (bs : List GoBool) : Option Event :=
  match e with
  | none => none
  | some ev =>
    some { ev with buf := (ev.buf ++ Event.key 44 k ++
      (91 :: ((bs.map boolBytes).intersperse [44]).flatten ++ [93])) }

-- The rendered form of a time.Duration (its String method is external to
-- the core) is taken as input.
def Event.Dur (e : Option Event) (k : List Nat) (dstr : List Nat) : Option Event :=
  match e with
  | none => none
  | some ev =>
    some { ev with buf := (ev.buf ++ Event.key 44 k ++ (34 :: (dstr ++ [34]))) }

def Event.Durs (e : Option Event) (k : List Nat) (dstrs : List (List Nat)) : Option Event :=
  match e with
  | none => none
  | some ev =>
    some { ev with buf := (ev.buf ++ Event.key 44 k ++
      (91 :: ((dstrs.map (fun d => 34 :: (d ++ [34]))).intersperse [44]).flatten ++ [93])) }

-- An error value is its message bytes, or none for a nil error.
def Event.Err (e : Option Event) (err : Option (List Nat)) : Option Event :=
  match e with
  | none => none
  | some ev =>
    match err with
    | none => some { ev with buf := (ev.buf ++
        [44, 34, 101, 114, 114, 111, 114, 34, 58, 110, 117, 108, 108]) }
    | some msg => some { ev with buf := (ev.buf ++
        [44, 34, 101, 114, 114, 111, 114, 34, 58] ++ stringBytes msg ev.escapeHTML) }

def Event.Errs (e : Option Event) (k : List Nat) (errs : List (Option (List Nat))) :
    Option Event :=
  match e with
  | none => none
  | some ev =>
    some { ev with buf := (ev.buf ++ Event.key 44 k ++
      (91 :: ((errs.map (fun err =>
          match err with
          | none => [110, 117, 108, 108]
          | some msg => stringBytes msg ev.escapeHTML)).intersperse [44]).flatten ++ [93])) }

-- Floating point rendering delegates to strconv.AppendFloat (external);
-- the rendered digits are taken as input.
def Event.Float64 (e : Option Event) (k : List Nat) (fstr : List Nat) : Option Event :=
  match e with
  | none => none
  | some ev => some { ev with buf := ev.buf ++ Event.key 44 k ++ fstr }

def Event.Floats64 (e : Option Event) (k : List Nat) (fstrs : List (List Nat)) :
    Option Event :=
  match e with
  | none => none
  | some ev =>
    some { ev with buf := (ev.buf ++ Event.key 44 k ++
      (91 :: (fstrs.intersperse [44]).flatten ++ [93])) }

def Event.Floats32 (e : Option Event) (k : List Nat) (fstrs : List (List Nat)) :
    Option Event :=
  match e with
  | none => none
  | some ev =>
    some { ev with buf := (ev.buf ++ Event.key 44 k ++
      (91 :: (fstrs.intersperse [44]).flatten ++ [93])) }

def Event.Int64 (e : Option Event) (k : List Nat) (i : GoInt) : Option Event :=
  match e with
  | none => none
  | some ev => some { ev with buf := ev.buf ++ Event.key 44 k ++ appendInt i }

def Event.Uint64 (e : Option Event) (k : List Nat) (u : Nat) : Option Event :=
  match e with
  | none => none
  | some ev => some { ev with buf := ev.buf ++ Event.key 44 k ++ natDigits u }

def Event.Float32 (e : Option Event) (k : List Nat) (fstr : List Nat) : Option Event :=
  Event.Float64 e k fstr

def Event.Int (e : Option Event) (k : List Nat) (i : GoInt) : Option Event :=
  Event.Int64 e k i

def Event.Int32 (e : Option Event) (k : List Nat) (i : GoInt) : Option Event :=
  Event.Int64 e k i

def Event.Int16 (e : Option Event) (k : List Nat) (i : GoInt) : Option Event :=
  Event.Int64 e k i

def Event.Int8 (e : Option Event) (k : List Nat) (i : GoInt) : Option Event :=
  Event.Int64 e k i

def Event.Uint32 (e : Option Event) (k : List Nat) (u : Nat) : Option Event :=
  Event.Uint64 e k u

def Event.Uint16 (e : Option Event) (k : List Nat) (u : Nat) : Option Event :=
  Event.Uint64 e k u

def Event.Uint8 (e : Option Event) (k : List Nat) (u : Nat) : Option Event :=
  Event.Uint64 e k u

def Event.RawJSON (e : Option Event) (k : List Nat) (raw : List Nat) : Option Event :=
  match e with
  | none => none
  | some ev => some { ev with buf := ev.buf ++ Event.key 44 k ++ raw }

def Event.Str (e : Option Event) (k : List Nat) (val : List Nat) : Option Event :=
  match e with
  | none => none
  | some ev =>
    some { ev with buf := (ev.buf ++ Event.key 44 k ++ stringBytes val ev.escapeHTML) }

def Event.Strs (e : Option Event) (k : List Nat) (vals : List (List Nat)) : Option Event :=
  match e with
  | none => none
  | some ev =>
    some { ev with buf := (ev.buf ++ Event.key 44 k ++
      (91 :: ((vals.map (fun v => stringBytes v ev.escapeHTML)).intersperse [44]).flatten ++ [93])) }

-- The unsafe string reinterpretation in the source is the identity here.
def Event.Bytes (e : Option Event) (k : List Nat) (val : List Nat) : Option Event :=
  match e with
  | none => none
  | some ev =>
    some { ev with buf := (ev.buf ++ Event.key 44 k ++ stringBytes val ev.escapeHTML) }

-- The bytes of the literal marshaling error prompt followed by a space.
def marshalingErrorMsg : List Nat :=
  [109, 97, 114, 115, 104, 97, 108, 105, 110, 103, 32, 101, 114, 114, 111, 114, 58, 32]

-- json.Marshal is external; its result (bytes or an error message) is
-- taken as input.
def Event.Interface (e : Option Event) (k : List Nat)
    (marshaled : Except (List Nat) (List Nat)) : Option Event :=
  match e with
  | none => none
  | some ev =>
    match marshaled with
    | Except.error msg =>
      some { ev with buf := (ev.buf ++ Event.key 44 k ++
        stringBytes (marshalingErrorMsg ++ msg) ev.escapeHTML) }
    | Except.ok m =>
      some { ev with buf := (ev.buf ++ Event.key 44 k ++ stringBytes m ev.escapeHTML) }

def Event.Caller (e : Option Event) (ci : Option (List Nat × GoInt)) : Option Event :=
  match e with
  | none => none
  | some ev => some { ev with buf := ev.buf ++ callerBytes ci }

-- The terminal Send: append a closing brace and a newline, write the buffer
-- once; on a fatal event additionally write the two stack dumps (captured
-- by the external runtime.Stack, passed as inputs) before the process
-- exits.  The returned list holds the write calls in order.
def Event.Send (e : Option Event) (st1 st2 : List Nat) : List (List Nat) :=
  match e with
  | none => []
  | some ev =>
    [ev.buf ++ [125, 10]] ++ (if ev.fatal then [st1, st2] else [])

-- The bytes of a comma followed by a quoted message key and a colon.
def messageHeader : List Nat :=
  [44, 34, 109, 101, 115, 115, 97, 103, 101, 34, 58]

-- The terminal Msg: append the message field, then behave as Send.
def Event.Msg (e : Option Event) (msg : List Nat) (st1 st2 : List Nat) :
    List (List Nat) :=
  match e with
  | none => []
  | some ev =>
    [ev.buf ++ messageHeader ++ stringBytes msg ev.escapeHTML ++ [125, 10]] ++
      (if ev.fatal then [st1, st2] else [])

-- ---------------------------------------------------------------------------
-- Spec-side reference definitions (the external semantics the claims compare
-- the code against).
-- ---------------------------------------------------------------------------

-- Zero-padded fixed-width decimal renderings, as produced by the
-- general-purpose Go time formatter for two, three and four digit layout
-- fields when the value fits the width (the claims restrict the ranges so
-- that it always does).
def pad2 (n : Nat) : List Nat := [48 + n / 10 % 10, 48 + n % 10]

def pad3 (n : Nat) : List Nat := [48 + n / 100 % 10, 48 + n / 10 % 10, 48 + n % 10]

def pad4 (n : Nat) : List Nat :=
  [48 + n / 1000 % 10, 48 + n / 100 % 10, 48 + n / 10 % 10, 48 + n % 10]

def stripTrailingZeroDigits (l : List Nat) : List Nat :=
  (l.reverse.dropWhile (fun b => b = 48)).reverse

/-- Modelled from the spec: formatting a UTC timestamp with the
general-purpose Go formatter and the exact layout 2006-01-02T15:04:05.999Z.
In that layout the fractional field .999 truncates the nanoseconds to
milliseconds and then drops trailing zero digits, dropping the decimal
point as well when all three digits are zero. -/
def goFormatMilli999 (t : GoTime) : List Nat :=
  let ms := t.nanosecond / 1000000
  let frac := stripTrailingZeroDigits (pad3 ms)
  pad4 t.year ++ [45] ++ pad2 t.month ++ [45] ++ pad2 t.day ++ [84] ++
    pad2 t.hour ++ [58] ++ pad2 t.minute ++ [58] ++ pad2 t.second ++
    (if frac = [] then [] else 46 :: frac) ++ [90]

/-- Modelled from the spec: the same layout with the fixed fractional field
.000, which keeps all three (truncated) millisecond digits. -/
def goFormatMilli000 (t : GoTime) : List Nat :=
  pad4 t.year ++ [45] ++ pad2 t.month ++ [45] ++ pad2 t.day ++ [84] ++
    pad2 t.hour ++ [58] ++ pad2 t.minute ++ [58] ++ pad2 t.second ++
    (46 :: pad3 (t.nanosecond / 1000000)) ++ [90]

-- The unique shortest UTF-8 encoding of a Unicode code point.
def utf8Encode (c : Nat) : List Nat :=
  if c < 0x80 then [c]
  else if c < 0x800 then [0xC0 + c / 64, 0x80 + c % 64]
  else if c < 0x10000 then [0xE0 + c / 4096, 0x80 + c / 64 % 64, 0x80 + c % 64]
  else [0xF0 + c / 262144, 0x80 + c / 4096 % 64, 0x80 + c / 64 % 64, 0x80 + c % 64]

-- Value of one hexadecimal digit character, upper or lower case.
def hexVal (c : Nat) : Option Nat :=
  if 48 ≤ c ∧ c ≤ 57 then some (c - 48)
  else if 97 ≤ c ∧ c ≤ 102 then some (c - 87)
  else if 65 ≤ c ∧ c ≤ 70 then some (c - 55)
  else none

-- Reads four hexadecimal digit characters and returns their value and the
-- remaining input.
def readHex4 : List Nat → Option (Nat × List Nat)
  | h1 :: h2 :: h3 :: h4 :: r =>
    (hexVal h1).bind (fun a =>
      (hexVal h2).bind (fun b =>
        (hexVal h3).bind (fun c =>
          (hexVal h4).map (fun d => (a * 4096 + b * 256 + c * 16 + d, r)))))
  | _ => none

-- Decodes one u-escape already stripped of its backslash-u prefix,
-- combining a high surrogate with a following escaped low surrogate and
-- rejecting lone surrogates; returns the decoded code point and the
-- remaining input.
def readUEscape (r : List Nat) : Option (Nat × List Nat) :=
  match readHex4 r with
  | none => none
  | some (cp, r2) =>
    if 0xD800 ≤ cp ∧ cp ≤ 0xDBFF then
      match r2 with
      | x :: y :: rr =>
        if x = 92 ∧ y = 117 then
          match readHex4 rr with
          | none => none
          | some (lo, r3) =>
            if 0xDC00 ≤ lo ∧ lo ≤ 0xDFFF then
              some (0x10000 + (cp - 0xD800) * 1024 + (lo - 0xDC00), r3)
            else none
        else none
      | _ => none
    else if 0xDC00 ≤ cp ∧ cp ≤ 0xDFFF then none
    else some (cp, r2)

-- Decodes one backslash escape (the bytes after the backslash): returns
-- the decoded bytes and the remaining input.  The u-escape re-encodes the
-- decoded code point as UTF-8.
def readEscape (r : List Nat) : Option (List Nat × List Nat) :=
  match r with
  | [] => none
  | e :: t =>
    if e = 34 then some ([34], t)
    else if e = 92 then some ([92], t)
    else if e = 47 then some ([47], t)
    else if e = 98 then some ([8], t)
    else if e = 102 then some ([12], t)
    else if e = 110 then some ([10], t)
    else if e = 114 then some ([13], t)
    else if e = 116 then some ([9], t)
    else if e = 117 then
      match readUEscape t with
      | none => none
      | some (cp, r2) => some (utf8Encode cp, r2)
    else none

/-- Modelled from the spec: the body scanner of a standard strict JSON
string decoder, applied to the bytes between the opening quote and the end
of the literal.  It accepts the closing quote only at the very end, decodes
backslash escapes through readEscape, rejects unescaped control bytes, and
passes every other byte through unchanged.  The first argument is fuel; one
unit is spent per decoded item and every item consumes at least one input
byte, so fuel equal to the input length (as supplied by the wrapper below)
suffices. -/
def jsonUnquoteBodyF : Nat → List Nat → Option (List Nat)
  | _, [] => none
  | 0, _ :: _ => none
  | fuel + 1, b :: rest =>
    if b = 34 then (if rest.isEmpty then some [] else none)
    else if b = 92 then
      match readEscape rest with
      | none => none
      | some (dec, r) => (jsonUnquoteBodyF fuel r).map (fun s => dec ++ s)
    else if b < 32 then none
    else (jsonUnquoteBodyF fuel rest).map (fun s => b :: s)

def jsonUnquoteBody (l : List Nat) : Option (List Nat) :=
  jsonUnquoteBodyF l.length l

/-- Modelled from the spec: a standard strict JSON decoder applied to one
complete string literal: an opening quote, the body, a closing quote. -/
def jsonUnquote (l : List Nat) : Option (List Nat) :=
  match l with
  | 34 :: rest => jsonUnquoteBody rest
  | _ => none

-- Go utf8.ValidString: scan with DecodeRuneInString and fail on any
-- malformed position; fueled exactly like stringLoop.
def validUTF8F : Nat → List Nat → Bool
  | _, [] => true
  | 0, _ :: _ => false
  | fuel + 1, b :: rest =>
    if b < 0x80 then validUTF8F fuel rest
    else
      let cs := decodeRuneInString (b :: rest)
      if cs.1 = 0xFFFD ∧ cs.2 = 1 then false
      else validUTF8F fuel ((b :: rest).drop cs.2)

def validUTF8 (v : List Nat) : Bool := validUTF8F v.length v

-- Fuel-stable entry point for the escaper body (fuel fixed to the length).
def escBody (escapeHTML : Bool) (v : List Nat) : List Nat :=
  stringLoop escapeHTML v.length v

-- ---------------------------------------------------------------------------
-- A deep embedding of chains of field-append calls, used to state the
-- buffer-shape invariant and the output-order contract.
-- ---------------------------------------------------------------------------

inductive FieldOp where
  | bool (k : List Nat) (b : GoBool)
  | bools (k : List Nat) (bs : List GoBool)
  | int64 (k : List Nat) (i : GoInt)
  | uint64 (k : List Nat) (u : Nat)
  | float64 (k : List Nat) (fstr : List Nat)
  | floats64 (k : List Nat) (fstrs : List (List Nat))
  | str (k : List Nat) (val : List Nat)
  | strs (k : List Nat) (vals : List (List Nat))
  | bytes (k : List Nat) (val : List Nat)
  | dur (k : List Nat) (dstr : List Nat)
  | durs (k : List Nat) (dstrs : List (List Nat))
  | tm (k : List Nat) (t : GoTime)
  | err (msg : Option (List Nat))
  | errs (k : List Nat) (msgs : List (Option (List Nat)))
  | rawJSON (k : List Nat) (raw : List Nat)
  | iface (k : List Nat) (res : Except (List Nat) (List Nat))
  | timestamp (unixNow : GoInt)

-- Dispatch one deep-embedded call to the corresponding method.  The time
-- field op is dispatched with the fast formatter path only when the Event
-- carries an empty time format, exactly as Event.Time does; a custom
-- format would call the external formatter, which the op list does not
-- carry, so the dispatcher passes a formatter returning the format bytes
-- themselves (irrelevant for every claim below, all of which fix an empty
-- TimeFormat).
def applyOp (e : Option Event) (op : FieldOp) : Option Event :=
  match op with
  | FieldOp.bool k b => Event.Bool e k b
  | FieldOp.bools k bs => Event.Bools e k bs
  | FieldOp.int64 k i => Event.Int64 e k i
  | FieldOp.uint64 k u => Event.Uint64 e k u
  | FieldOp.float64 k fstr => Event.Float64 e k fstr
  | FieldOp.floats64 k fstrs => Event.Floats64 e k fstrs
  | FieldOp.str k val => Event.Str e k val
  | FieldOp.strs k vals => Event.Strs e k vals
  | FieldOp.bytes k val => Event.Bytes e k val
  | FieldOp.dur k dstr => Event.Dur e k dstr
  | FieldOp.durs k dstrs => Event.Durs e k dstrs
  | FieldOp.tm k t => Event.Time e k t (fun f _ => f)
  | FieldOp.err msg => Event.Err e msg
  | FieldOp.errs k msgs => Event.Errs e k msgs
  | FieldOp.rawJSON k raw => Event.RawJSON e k raw
  | FieldOp.iface k res => Event.Interface e k res
  | FieldOp.timestamp u => Event.Timestamp e u

def applyOps (e : Option Event) (ops : List FieldOp) : Option Event :=
  ops.foldl applyOp e

-- The bytes one deep-embedded call appends to an active Event with the
-- given escape flag and time format.
def opBytes (esc : Bool) (tf : List Nat) (op : FieldOp) : List Nat :=
  match op with
  | FieldOp.bool k b => Event.key 44 k ++ boolBytes b
  | FieldOp.bools k bs =>
    Event.key 44 k ++ (91 :: ((bs.map boolBytes).intersperse [44]).flatten ++ [93])
  | FieldOp.int64 k i => Event.key 44 k ++ appendInt i
  | FieldOp.uint64 k u => Event.key 44 k ++ natDigits u
  | FieldOp.float64 k fstr => Event.key 44 k ++ fstr
  | FieldOp.floats64 k fstrs =>
    Event.key 44 k ++ (91 :: (fstrs.intersperse [44]).flatten ++ [93])
  | FieldOp.str k val => Event.key 44 k ++ stringBytes val esc
  | FieldOp.strs k vals =>
    Event.key 44 k ++ (91 :: ((vals.map (fun v => stringBytes v esc)).intersperse [44]).flatten ++ [93])
  | FieldOp.bytes k val => Event.key 44 k ++ stringBytes val esc
  | FieldOp.dur k dstr => Event.key 44 k ++ (34 :: (dstr ++ [34]))
  | FieldOp.durs k dstrs =>
    Event.key 44 k ++ (91 :: ((dstrs.map (fun d => 34 :: (d ++ [34]))).intersperse [44]).flatten ++ [93])
  | FieldOp.tm k t =>
    Event.key 44 k ++ (if tf = [] then Event.time t else 34 :: (tf ++ [34]))
  | FieldOp.err none => [44, 34, 101, 114, 114, 111, 114, 34, 58, 110, 117, 108, 108]
  | FieldOp.err (some msg) =>
    [44, 34, 101, 114, 114, 111, 114, 34, 58] ++ stringBytes msg esc
  | FieldOp.errs k msgs =>
    Event.key 44 k ++ (91 :: ((msgs.map (fun m =>
        match m with
        | none => [110, 117, 108, 108]
        | some msg => stringBytes msg esc)).intersperse [44]).flatten ++ [93])
  | FieldOp.rawJSON k raw => Event.key 44 k ++ raw
  | FieldOp.iface k (Except.error msg) =>
    Event.key 44 k ++ stringBytes (marshalingErrorMsg ++ msg) esc
  | FieldOp.iface k (Except.ok m) => Event.key 44 k ++ stringBytes m esc
  | FieldOp.timestamp u =>
    Event.key 44 [116, 105, 109, 101, 115, 116, 97, 109, 112] ++ appendInt u

def opsBytes (esc : Bool) (tf : List Nat) (ops : List FieldOp) : List Nat :=
  (ops.map (opBytes esc tf)).flatten

-- Clock-range validity of a GoTime, as guaranteed by the Go time package
-- for any real instant with a four-digit year.
def GoTime.valid (t : GoTime) : Bool :=
  decide (1000 ≤ t.year ∧ t.year ≤ 9999 ∧ 1 ≤ t.month ∧ t.month ≤ 12 ∧
    1 ≤ t.day ∧ t.day ≤ 31 ∧ t.hour ≤ 23 ∧ t.minute ≤ 59 ∧ t.second ≤ 59 ∧
    t.nanosecond ≤ 999999999)

def noNewline (l : List Nat) : Bool := !(l.contains 10)

-- A deep-embedded call is clean when the raw byte segments it supplies
-- (key bytes, raw JSON, externally rendered duration and float strings,
-- and any embedded clock value) cannot themselves smuggle a newline into
-- the record; escaped string values need no condition.
def FieldOp.clean : FieldOp → Bool
  | FieldOp.bool k _ => noNewline k
  | FieldOp.bools k _ => noNewline k
  | FieldOp.int64 k _ => noNewline k
  | FieldOp.uint64 k _ => noNewline k
  | FieldOp.float64 k fstr => noNewline k && noNewline fstr
  | FieldOp.floats64 k fstrs => noNewline k && fstrs.all noNewline
  | FieldOp.str k _ => noNewline k
  | FieldOp.strs k _ => noNewline k
  | FieldOp.bytes k _ => noNewline k
  | FieldOp.dur k dstr => noNewline k && noNewline dstr
  | FieldOp.durs k dstrs => noNewline k && dstrs.all noNewline
  | FieldOp.tm k t => noNewline k && t.valid
  | FieldOp.err none => true
  | FieldOp.err (some _) => true
  | FieldOp.errs k _ => noNewline k
  | FieldOp.rawJSON k raw => noNewline k && noNewline raw
  | FieldOp.iface k _ => noNewline k
  | FieldOp.timestamp _ => true

-- The shape invariant of the record buffer: an opening brace, a first
-- quoted-key field, then comma-led quoted-key fields.
def fieldChunk (k v : List Nat) : List Nat := 34 :: (k ++ 34 :: 58 :: v)

def isChunk (c : List Nat) : Prop := ∃ k v, c = 44 :: fieldChunk k v

def objectShape (buf : List Nat) : Prop :=
  ∃ (k0 v0 : List Nat) (rest : List (List Nat)), (∀ c ∈ rest, isChunk c) ∧
    buf = 123 :: fieldChunk k0 v0 ++ rest.flatten

-- ---------------------------------------------------------------------------
-- Supporting lemmas
-- ---------------------------------------------------------------------------

-- fuel and decoder infrastructure

theorem decodeRune_pos (b0 : Nat) (rest : List Nat) :
    1 ≤ (decodeRuneInString (b0 :: rest)).2 ∧
    (decodeRuneInString (b0 :: rest)).2 ≤ (b0 :: rest).length := by
  rcases rest with _ | ⟨b1, rest⟩
  · simp only [decodeRuneInString]
    split_ifs <;> simp
  · rcases rest with _ | ⟨b2, rest⟩
    · simp only [decodeRuneInString]
      split_ifs <;> simp
    · rcases rest with _ | ⟨b3, rest⟩
      · simp only [decodeRuneInString]
        split_ifs <;> simp
      · simp only [decodeRuneInString]
        split_ifs <;> simp

theorem stringLoop_congrFuel (esc : Bool) :
    ∀ f1 f2 v, v.length ≤ f1 → v.length ≤ f2 →
      stringLoop esc f1 v = stringLoop esc f2 v := by
  intro f1
  induction f1 with
  | zero =>
    intro f2 v h1 h2
    have hv : v = [] := List.eq_nil_of_length_eq_zero (Nat.le_zero.mp h1)
    subst hv
    cases f2 <;> rfl
  | succ f ih =>
    intro f2 v h1 h2
    rcases v with _ | ⟨b, rest⟩
    · cases f2 <;> rfl
    · rcases f2 with _ | g
      · simp at h2
      · have hr : rest.length ≤ f := by simpa using h1
        have hr2 : rest.length ≤ g := by simpa using h2
        have hd := (decodeRune_pos b rest).1
        simp only [stringLoop]
        by_cases hb : b < 0x80
        · simp only [hb, if_true]
          rw [ih g rest hr hr2]
        · have hlen : ((b :: rest).drop (decodeRuneInString (b :: rest)).2).length ≤ f := by
            simp only [List.length_drop, List.length_cons]
            omega
          have hlen2 : ((b :: rest).drop (decodeRuneInString (b :: rest)).2).length ≤ g := by
            simp only [List.length_drop, List.length_cons]
            omega
          simp only [hb, if_false]
          rw [ih g rest hr hr2,
              ih g ((b :: rest).drop (decodeRuneInString (b :: rest)).2) hlen hlen2]

theorem stringLoop_eq_escBody (esc : Bool) (fuel : Nat) (v : List Nat)
    (h : v.length ≤ fuel) : stringLoop esc fuel v = escBody esc v :=
  stringLoop_congrFuel esc fuel v.length v h le_rfl

theorem escBody_cons (esc : Bool) (b : Nat) (rest : List Nat) :
    escBody esc (b :: rest) =
      if b < 0x80 then
        (if htmlSafeSet b || (!esc && safeSet b) then [b]
         else if b = 92 ∨ b = 34 then [92, b]
         else if b = 10 then [92, 110]
         else if b = 13 then [92, 114]
         else if b = 9 then [92, 116]
         else [92, 117, 48, 48, hexDig (b / 16), hexDig (b % 16)]) ++ escBody esc rest
      else if (decodeRuneInString (b :: rest)).1 = 0xFFFD ∧
          (decodeRuneInString (b :: rest)).2 = 1 then
        [92, 117, 102, 102, 102, 100] ++ escBody esc rest
      else if (decodeRuneInString (b :: rest)).1 = 0x2028 ∨
          (decodeRuneInString (b :: rest)).1 = 0x2029 then
        [92, 117, 50, 48, 50, hexDig ((decodeRuneInString (b :: rest)).1 % 16)] ++
          escBody esc ((b :: rest).drop (decodeRuneInString (b :: rest)).2)
      else
        (b :: rest).take (decodeRuneInString (b :: rest)).2 ++
          escBody esc ((b :: rest).drop (decodeRuneInString (b :: rest)).2) := by
  have hd := (decodeRune_pos b rest).1
  have hdrop : ((b :: rest).drop (decodeRuneInString (b :: rest)).2).length ≤ rest.length := by
    simp only [List.length_drop, List.length_cons]
    omega
  show stringLoop esc (b :: rest).length (b :: rest) = _
  simp only [List.length_cons, stringLoop]
  rw [stringLoop_eq_escBody esc rest.length rest le_rfl,
      stringLoop_eq_escBody esc rest.length _ hdrop]

theorem escBody_nil (esc : Bool) : escBody esc [] = [] := rfl

theorem validUTF8F_congrFuel :
    ∀ f1 f2 v, v.length ≤ f1 → v.length ≤ f2 →
      validUTF8F f1 v = validUTF8F f2 v := by
  intro f1
  induction f1 with
  | zero =>
    intro f2 v h1 h2
    have hv : v = [] := List.eq_nil_of_length_eq_zero (Nat.le_zero.mp h1)
    subst hv
    cases f2 <;> rfl
  | succ f ih =>
    intro f2 v h1 h2
    rcases v with _ | ⟨b, rest⟩
    · cases f2 <;> rfl
    · rcases f2 with _ | g
      · simp at h2
      · have hr : rest.length ≤ f := by simpa using h1
        have hr2 : rest.length ≤ g := by simpa using h2
        have hd := (decodeRune_pos b rest).1
        have hlen : ((b :: rest).drop (decodeRuneInString (b :: rest)).2).length ≤ f := by
          simp only [List.length_drop, List.length_cons]
          omega
        have hlen2 : ((b :: rest).drop (decodeRuneInString (b :: rest)).2).length ≤ g := by
          simp only [List.length_drop, List.length_cons]
          omega
        simp only [validUTF8F]
        rw [ih g rest hr hr2,
            ih g ((b :: rest).drop (decodeRuneInString (b :: rest)).2) hlen hlen2]

theorem validUTF8F_eq (fuel : Nat) (v : List Nat) (h : v.length ≤ fuel) :
    validUTF8F fuel v = validUTF8 v :=
  validUTF8F_congrFuel fuel v.length v h le_rfl

theorem validUTF8_cons (b : Nat) (rest : List Nat) :
    validUTF8 (b :: rest) =
      if b < 0x80 then validUTF8 rest
      else if (decodeRuneInString (b :: rest)).1 = 0xFFFD ∧
          (decodeRuneInString (b :: rest)).2 = 1 then false
      else validUTF8 ((b :: rest).drop (decodeRuneInString (b :: rest)).2) := by
  have hd := (decodeRune_pos b rest).1
  have hdrop : ((b :: rest).drop (decodeRuneInString (b :: rest)).2).length ≤ rest.length := by
    simp only [List.length_drop, List.length_cons]
    omega
  show validUTF8F (b :: rest).length (b :: rest) = _
  simp only [List.length_cons, validUTF8F]
  rw [validUTF8F_eq rest.length rest le_rfl, validUTF8F_eq rest.length _ hdrop]

theorem validUTF8_nil : validUTF8 [] = true := rfl


theorem acceptRange_mid (b0 : Nat) (h1 : 194 ≤ b0) (h2 : b0 ≤ 223) :
    acceptRange b0 = (128, 191) := by
  unfold acceptRange
  rw [if_neg (by omega), if_neg (by omega), if_neg (by omega), if_neg (by omega)]

theorem decode2_eq (b0 b1 : Nat) (t : List Nat) (h2 : 194 ≤ b0) (h3 : b0 ≤ 223)
    (hA : 128 ≤ b1 ∧ b1 ≤ 191) :
    decodeRuneInString (b0 :: b1 :: t) = ((b0 % 32) * 64 + b1 % 64, 2) := by
  simp only [decodeRuneInString, acceptRange_mid b0 h2 h3]
  rw [if_neg (by omega), if_neg (by omega), if_pos (by omega), if_pos (by simpa using hA)]

theorem decode3_eq (b0 b1 b2 : Nat) (t : List Nat) (h2 : 224 ≤ b0) (h3 : b0 ≤ 239)
    (hA : (acceptRange b0).1 ≤ b1 ∧ b1 ≤ (acceptRange b0).2)
    (hB : 128 ≤ b2 ∧ b2 ≤ 191) :
    decodeRuneInString (b0 :: b1 :: b2 :: t) =
      ((b0 % 16) * 4096 + (b1 % 64) * 64 + b2 % 64, 3) := by
  simp only [decodeRuneInString]
  rw [if_neg (by omega), if_neg (by omega), if_neg (by omega), if_pos (by omega),
      if_pos (by exact ⟨hA, by simpa using hB⟩)]

theorem decode4_eq (b0 b1 b2 b3 : Nat) (t : List Nat) (h2 : 240 ≤ b0) (h3 : b0 ≤ 244)
    (hA : (acceptRange b0).1 ≤ b1 ∧ b1 ≤ (acceptRange b0).2)
    (hB : 128 ≤ b2 ∧ b2 ≤ 191) (hC : 128 ≤ b3 ∧ b3 ≤ 191) :
    decodeRuneInString (b0 :: b1 :: b2 :: b3 :: t) =
      ((b0 % 8) * 262144 + (b1 % 64) * 4096 + (b2 % 64) * 64 + b3 % 64, 4) := by
  simp only [decodeRuneInString]
  rw [if_neg (by omega), if_neg (by omega), if_neg (by omega), if_neg (by omega),
      if_pos (by omega), if_pos (by exact ⟨hA, by simpa using hB, by simpa using hC⟩)]

-- The range bounds of the first continuation byte, for any leading byte.
theorem acceptRange_bounds (b0 : Nat) :
    128 ≤ (acceptRange b0).1 ∧ (acceptRange b0).1 ≤ 160 ∧
    128 ≤ (acceptRange b0).2 ∧ (acceptRange b0).2 ≤ 191 := by
  unfold acceptRange
  split_ifs <;> simp

theorem spec2 (b0 b1 : Nat) (t : List Nat) (h2 : 194 ≤ b0) (h3 : b0 ≤ 223)
    (hA : 128 ≤ b1 ∧ b1 ≤ 191) :
    (b0 :: b1 :: t).take 2 = utf8Encode ((b0 % 32) * 64 + b1 % 64) ∧
    0x80 ≤ (b0 % 32) * 64 + b1 % 64 ∧
    (∀ u, decodeRuneInString (b0 :: ((b1 :: t) ++ u)) = ((b0 % 32) * 64 + b1 % 64, 2)) ∧
    (∀ x ∈ (b0 :: b1 :: t).take 2, 0x80 ≤ x ∧ x ≤ 0xF4) := by
  refine ⟨?_, by omega, ?_, ?_⟩
  · simp only [utf8Encode, List.take_succ_cons, List.take_zero]
    rw [if_neg (by omega), if_pos (by omega)]
    simp only [List.cons.injEq, and_true]
    constructor <;> omega
  · intro u
    simp only [List.cons_append]
    exact decode2_eq b0 b1 (t ++ u) h2 h3 hA
  · intro x hx
    simp only [List.take_succ_cons, List.take_zero, List.mem_cons,
      List.not_mem_nil, or_false] at hx
    rcases hx with rfl | rfl <;> omega

theorem spec3 (b0 b1 b2 : Nat) (t : List Nat) (h2 : 224 ≤ b0) (h3 : b0 ≤ 239)
    (hA : (acceptRange b0).1 ≤ b1 ∧ b1 ≤ (acceptRange b0).2)
    (hB : 128 ≤ b2 ∧ b2 ≤ 191) :
    (b0 :: b1 :: b2 :: t).take 3 =
      utf8Encode ((b0 % 16) * 4096 + (b1 % 64) * 64 + b2 % 64) ∧
    0x80 ≤ (b0 % 16) * 4096 + (b1 % 64) * 64 + b2 % 64 ∧
    (∀ u, decodeRuneInString (b0 :: ((b1 :: b2 :: t) ++ u)) =
      ((b0 % 16) * 4096 + (b1 % 64) * 64 + b2 % 64, 3)) ∧
    (∀ x ∈ (b0 :: b1 :: b2 :: t).take 3, 0x80 ≤ x ∧ x ≤ 0xF4) := by
  have hrange := acceptRange_bounds b0
  have hc : 2048 ≤ (b0 % 16) * 4096 + (b1 % 64) * 64 + b2 % 64 := by
    by_cases hE0 : b0 = 224
    · have : acceptRange b0 = (160, 191) := by rw [hE0]; rfl
      rw [this] at hA
      simp at hA
      omega
    · omega
  refine ⟨?_, by omega, ?_, ?_⟩
  · simp only [utf8Encode, List.take_succ_cons, List.take_zero]
    rw [if_neg (by omega), if_neg (by omega), if_pos (by omega)]
    simp only [List.cons.injEq, and_true]
    refine ⟨by omega, by omega, by omega⟩
  · intro u
    simp only [List.cons_append]
    exact decode3_eq b0 b1 b2 (t ++ u) h2 h3 hA hB
  · intro x hx
    simp only [List.take_succ_cons, List.take_zero, List.mem_cons,
      List.not_mem_nil, or_false] at hx
    rcases hx with rfl | rfl | rfl <;> omega

theorem spec4 (b0 b1 b2 b3 : Nat) (t : List Nat) (h2 : 240 ≤ b0) (h3 : b0 ≤ 244)
    (hA : (acceptRange b0).1 ≤ b1 ∧ b1 ≤ (acceptRange b0).2)
    (hB : 128 ≤ b2 ∧ b2 ≤ 191) (hC : 128 ≤ b3 ∧ b3 ≤ 191) :
    (b0 :: b1 :: b2 :: b3 :: t).take 4 =
      utf8Encode ((b0 % 8) * 262144 + (b1 % 64) * 4096 + (b2 % 64) * 64 + b3 % 64) ∧
    0x80 ≤ (b0 % 8) * 262144 + (b1 % 64) * 4096 + (b2 % 64) * 64 + b3 % 64 ∧
    (∀ u, decodeRuneInString (b0 :: ((b1 :: b2 :: b3 :: t) ++ u)) =
      ((b0 % 8) * 262144 + (b1 % 64) * 4096 + (b2 % 64) * 64 + b3 % 64, 4)) ∧
    (∀ x ∈ (b0 :: b1 :: b2 :: b3 :: t).take 4, 0x80 ≤ x ∧ x ≤ 0xF4) := by
  have hrange := acceptRange_bounds b0
  have hc : 65536 ≤ (b0 % 8) * 262144 + (b1 % 64) * 4096 + (b2 % 64) * 64 + b3 % 64 := by
    by_cases hF0 : b0 = 240
    · have : acceptRange b0 = (144, 191) := by rw [hF0]; rfl
      rw [this] at hA
      simp at hA
      omega
    · omega
  refine ⟨?_, by omega, ?_, ?_⟩
  · simp only [utf8Encode, List.take_succ_cons, List.take_zero]
    rw [if_neg (by omega), if_neg (by omega), if_neg (by omega)]
    simp only [List.cons.injEq, and_true]
    refine ⟨by omega, by omega, by omega, by omega⟩
  · intro u
    simp only [List.cons_append]
    exact decode4_eq b0 b1 b2 b3 (t ++ u) h2 h3 hA hB hC
  · intro x hx
    simp only [List.take_succ_cons, List.take_zero, List.mem_cons,
      List.not_mem_nil, or_false] at hx
    rcases hx with rfl | rfl | rfl | rfl <;> omega

theorem decodeRune_spec (b0 : Nat) (rest : List Nat) (c s : Nat)
    (h : decodeRuneInString (b0 :: rest) = (c, s))
    (hb : 0x80 ≤ b0) (hne : ¬(c = 0xFFFD ∧ s = 1)) :
    (1 ≤ s ∧ s ≤ (b0 :: rest).length) ∧
    (b0 :: rest).take s = utf8Encode c ∧
    0x80 ≤ c ∧
    (∀ u, decodeRuneInString (b0 :: (rest ++ u)) = (c, s)) ∧
    (∀ x ∈ (b0 :: rest).take s, 0x80 ≤ x ∧ x ≤ 0xF4) := by
  rcases rest with _ | ⟨b1, rest⟩
  · -- rest = []: every branch fails
    simp only [decodeRuneInString] at h
    rw [if_neg (by omega)] at h
    split_ifs at h <;> (injection h with h1 h2; exact absurd ⟨h1.symm, h2.symm⟩ hne)
  · rcases rest with _ | ⟨b2, rest⟩
    · -- rest = [b1]: only the two-byte class can succeed
      simp only [decodeRuneInString] at h
      rw [if_neg (by omega)] at h
      by_cases hc2 : b0 < 194
      · rw [if_pos hc2] at h
        injection h with h1 h2
        exact absurd ⟨h1.symm, h2.symm⟩ hne
      · rw [if_neg hc2] at h
        by_cases hdf : b0 ≤ 223
        · rw [if_pos hdf] at h
          rw [acceptRange_mid b0 (by omega) hdf] at h
          by_cases hA : 128 ≤ b1 ∧ b1 ≤ 191
          · rw [if_pos (by simpa using hA)] at h
            injection h with h1 h2
            subst h1 h2
            obtain ⟨e1, e2, e3, e4⟩ := spec2 b0 b1 [] (by omega) hdf hA
            exact ⟨⟨by omega, by simp⟩, e1, e2, e3, e4⟩
          · rw [if_neg (by simpa using hA)] at h
            injection h with h1 h2
            exact absurd ⟨h1.symm, h2.symm⟩ hne
        · rw [if_neg hdf] at h
          split_ifs at h <;> (injection h with h1 h2; exact absurd ⟨h1.symm, h2.symm⟩ hne)
    · rcases rest with _ | ⟨b3, rest⟩
      · -- rest = [b1, b2]: two- or three-byte classes
        simp only [decodeRuneInString] at h
        rw [if_neg (by omega)] at h
        by_cases hc2 : b0 < 194
        · rw [if_pos hc2] at h
          injection h with h1 h2
          exact absurd ⟨h1.symm, h2.symm⟩ hne
        · rw [if_neg hc2] at h
          by_cases hdf : b0 ≤ 223
          · rw [if_pos hdf] at h
            rw [acceptRange_mid b0 (by omega) hdf] at h
            by_cases hA : 128 ≤ b1 ∧ b1 ≤ 191
            · rw [if_pos (by simpa using hA)] at h
              injection h with h1 h2
              subst h1 h2
              obtain ⟨e1, e2, e3, e4⟩ := spec2 b0 b1 [b2] (by omega) hdf hA
              exact ⟨⟨by omega, by simp⟩, e1, e2, e3, e4⟩
            · rw [if_neg (by simpa using hA)] at h
              injection h with h1 h2
              exact absurd ⟨h1.symm, h2.symm⟩ hne
          · rw [if_neg hdf] at h
            by_cases hef : b0 ≤ 239
            · rw [if_pos hef] at h
              by_cases hA : (acceptRange b0).1 ≤ b1 ∧ b1 ≤ (acceptRange b0).2
              · by_cases hB : 128 ≤ b2 ∧ b2 ≤ 191
                · rw [if_pos ⟨hA, by simpa using hB⟩] at h
                  injection h with h1 h2
                  subst h1 h2
                  obtain ⟨e1, e2, e3, e4⟩ := spec3 b0 b1 b2 [] (by omega) hef hA hB
                  exact ⟨⟨by omega, by simp⟩, e1, e2, e3, e4⟩
                · rw [if_neg (by rw [not_and]; intro; simpa using hB)] at h
                  injection h with h1 h2
                  exact absurd ⟨h1.symm, h2.symm⟩ hne
              · rw [if_neg (by rw [not_and]; intro hx; exact absurd hx hA)] at h
                injection h with h1 h2
                exact absurd ⟨h1.symm, h2.symm⟩ hne
            · rw [if_neg hef] at h
              split_ifs at h <;> (injection h with h1 h2; exact absurd ⟨h1.symm, h2.symm⟩ hne)
      · -- rest = b1 :: b2 :: b3 :: rest: all classes possible
        simp only [decodeRuneInString] at h
        rw [if_neg (by omega)] at h
        by_cases hc2 : b0 < 194
        · rw [if_pos hc2] at h
          injection h with h1 h2
          exact absurd ⟨h1.symm, h2.symm⟩ hne
        · rw [if_neg hc2] at h
          by_cases hdf : b0 ≤ 223
          · rw [if_pos hdf] at h
            rw [acceptRange_mid b0 (by omega) hdf] at h
            by_cases hA : 128 ≤ b1 ∧ b1 ≤ 191
            · rw [if_pos (by simpa using hA)] at h
              injection h with h1 h2
              subst h1 h2
              obtain ⟨e1, e2, e3, e4⟩ := spec2 b0 b1 (b2 :: b3 :: rest) (by omega) hdf hA
              exact ⟨⟨by omega, by simp⟩, e1, e2, e3, e4⟩
            · rw [if_neg (by simpa using hA)] at h
              injection h with h1 h2
              exact absurd ⟨h1.symm, h2.symm⟩ hne
          · rw [if_neg hdf] at h
            by_cases hef : b0 ≤ 239
            · rw [if_pos hef] at h
              by_cases hA : (acceptRange b0).1 ≤ b1 ∧ b1 ≤ (acceptRange b0).2
              · by_cases hB : 128 ≤ b2 ∧ b2 ≤ 191
                · rw [if_pos ⟨hA, by simpa using hB⟩] at h
                  injection h with h1 h2
                  subst h1 h2
                  obtain ⟨e1, e2, e3, e4⟩ := spec3 b0 b1 b2 (b3 :: rest) (by omega) hef hA hB
                  exact ⟨⟨by omega, by simp⟩, e1, e2, e3, e4⟩
                · rw [if_neg (by rw [not_and]; intro; simpa using hB)] at h
                  injection h with h1 h2
                  exact absurd ⟨h1.symm, h2.symm⟩ hne
              · rw [if_neg (by rw [not_and]; intro hx; exact absurd hx hA)] at h
                injection h with h1 h2
                exact absurd ⟨h1.symm, h2.symm⟩ hne
            · rw [if_neg hef] at h
              by_cases hf4 : b0 ≤ 244
              · rw [if_pos hf4] at h
                by_cases hA : (acceptRange b0).1 ≤ b1 ∧ b1 ≤ (acceptRange b0).2
                · by_cases hB : 128 ≤ b2 ∧ b2 ≤ 191
                  · by_cases hC : 128 ≤ b3 ∧ b3 ≤ 191
                    · rw [if_pos ⟨hA, by simpa using hB, by simpa using hC⟩] at h
                      injection h with h1 h2
                      subst h1 h2
                      obtain ⟨e1, e2, e3, e4⟩ :=
                        spec4 b0 b1 b2 b3 rest (by omega) hf4 hA hB hC
                      exact ⟨⟨by omega, by simp⟩, e1, e2, e3, e4⟩
                    · rw [if_neg (by
                        rw [not_and]
                        intro
                        rw [not_and]
                        intro
                        simpa using hC)] at h
                      injection h with h1 h2
                      exact absurd ⟨h1.symm, h2.symm⟩ hne
                  · rw [if_neg (by
                      rw [not_and]
                      intro
                      rw [not_and]
                      intro hx
                      exact absurd (by simpa using hx) hB)] at h
                    injection h with h1 h2
                    exact absurd ⟨h1.symm, h2.symm⟩ hne
                · rw [if_neg (by rw [not_and]; intro hx; exact absurd hx hA)] at h
                  injection h with h1 h2
                  exact absurd ⟨h1.symm, h2.symm⟩ hne
              · rw [if_neg hf4] at h
                injection h with h1 h2
                exact absurd ⟨h1.symm, h2.symm⟩ hne


theorem readHex4_some (h1 h2 h3 h4 a b c d : Nat) (t : List Nat)
    (e1 : hexVal h1 = some a) (e2 : hexVal h2 = some b)
    (e3 : hexVal h3 = some c) (e4 : hexVal h4 = some d) :
    readHex4 (h1 :: h2 :: h3 :: h4 :: t) =
      some (a * 4096 + b * 256 + c * 16 + d, t) := by
  simp [readHex4, e1, e2, e3, e4]

theorem readHex4_len (l : List Nat) (v : Nat) (r : List Nat)
    (h : readHex4 l = some (v, r)) : r.length + 4 = l.length := by
  rcases l with _ | ⟨x1, l⟩
  · simp [readHex4] at h
  rcases l with _ | ⟨x2, l⟩
  · simp [readHex4] at h
  rcases l with _ | ⟨x3, l⟩
  · simp [readHex4] at h
  rcases l with _ | ⟨x4, l⟩
  · simp [readHex4] at h
  rcases ha : hexVal x1 with _ | a <;> rcases hb : hexVal x2 with _ | b <;>
    rcases hc : hexVal x3 with _ | c <;> rcases hd : hexVal x4 with _ | d <;>
    simp [readHex4, ha, hb, hc, hd] at h
  obtain ⟨rfl, rfl⟩ := h
  simp

theorem readUEscape_basic (r : List Nat) (cp : Nat) (r2 : List Nat)
    (h : readHex4 r = some (cp, r2))
    (hs : cp < 0xD800 ∨ 0xDFFF < cp) :
    readUEscape r = some (cp, r2) := by
  simp only [readUEscape, h]
  rw [if_neg (by omega), if_neg (by omega)]

theorem readUEscape_len (r : List Nat) (cp : Nat) (r2 : List Nat)
    (h : readUEscape r = some (cp, r2)) : r2.length + 4 ≤ r.length := by
  simp only [readUEscape] at h
  rcases h4 : readHex4 r with _ | ⟨cp0, rr⟩
  · rw [h4] at h
    simp at h
  · rw [h4] at h
    have hlen := readHex4_len r cp0 rr h4
    simp only at h
    split_ifs at h with hhi hlo
    · rcases rr with _ | ⟨x, rr2⟩
      · simp at h
      rcases rr2 with _ | ⟨y, rr3⟩
      · simp at h
      simp only at h
      split_ifs at h with hxy
      rcases h42 : readHex4 rr3 with _ | ⟨lo, r3⟩
      · rw [h42] at h
        simp at h
      · rw [h42] at h
        have hlen2 := readHex4_len rr3 lo r3 h42
        simp only at h
        split_ifs at h with hlor
        rw [Option.some_inj, Prod.mk.injEq] at h
        obtain ⟨h5, h6⟩ := h
        subst h6
        simp only [List.length_cons] at hlen
        omega
    · have hco : cp0 = cp ∧ rr = r2 := by
        first
        | exact h
        | simpa using h
      obtain ⟨h5, h6⟩ := hco
      subst h6
      omega

theorem readEscape_simple (e d : Nat) (t : List Nat)
    (h : (e = 34 ∧ d = 34) ∨ (e = 92 ∧ d = 92) ∨ (e = 110 ∧ d = 10) ∨
      (e = 114 ∧ d = 13) ∨ (e = 116 ∧ d = 9)) :
    readEscape (e :: t) = some ([d], t) := by
  rcases h with ⟨rfl, rfl⟩ | ⟨rfl, rfl⟩ | ⟨rfl, rfl⟩ | ⟨rfl, rfl⟩ | ⟨rfl, rfl⟩ <;>
    simp [readEscape]

theorem readEscape_u (t : List Nat) (cp : Nat) (r2 : List Nat)
    (h : readUEscape t = some (cp, r2)) :
    readEscape (117 :: t) = some (utf8Encode cp, r2) := by
  simp [readEscape, h]

theorem readEscape_len (r : List Nat) (dec rr : List Nat)
    (h : readEscape r = some (dec, rr)) : rr.length < r.length := by
  rcases r with _ | ⟨e, t⟩
  · simp [readEscape] at h
  · simp only [readEscape] at h
    split_ifs at h with h1 h2 h3 h4 h5 h6 h7 h8 h9
    any_goals
      (rw [Option.some_inj, Prod.mk.injEq] at h
       rw [← h.2]
       simp)
    · rcases hu : readUEscape t with _ | ⟨cp, r2⟩
      · rw [hu] at h
        simp at h
      · rw [hu] at h
        have hle := readUEscape_len t cp r2 hu
        rw [Option.some_inj, Prod.mk.injEq] at h
        rw [← h.2]
        simp only [List.length_cons]
        omega

theorem unqF_congr :
    ∀ f1 f2 v, v.length ≤ f1 → v.length ≤ f2 →
      jsonUnquoteBodyF f1 v = jsonUnquoteBodyF f2 v := by
  intro f1
  induction f1 with
  | zero =>
    intro f2 v h1 h2
    have hv : v = [] := List.eq_nil_of_length_eq_zero (Nat.le_zero.mp h1)
    subst hv
    cases f2 <;> rfl
  | succ f ih =>
    intro f2 v h1 h2
    rcases v with _ | ⟨b, rest⟩
    · cases f2 <;> rfl
    · rcases f2 with _ | g
      · simp at h2
      · have hr : rest.length ≤ f := by simpa using h1
        have hr2 : rest.length ≤ g := by simpa using h2
        simp only [jsonUnquoteBodyF]
        by_cases hb1 : b = 34
        · rw [if_pos hb1, if_pos hb1]
        · rw [if_neg hb1, if_neg hb1]
          by_cases hb2 : b = 92
          · rw [if_pos hb2, if_pos hb2]
            rcases he : readEscape rest with _ | ⟨dec, rr⟩
            · simp only [he]
            · have hl := readEscape_len rest dec rr he
              simp only [he]
              rw [ih g rr (by omega) (by omega)]
          · rw [if_neg hb2, if_neg hb2]
            by_cases hb3 : b < 32
            · rw [if_pos hb3, if_pos hb3]
            · rw [if_neg hb3, if_neg hb3, ih g rest hr hr2]

theorem unq_quoteEnd : jsonUnquoteBody [34] = some [] := rfl

theorem unq_pass (b : Nat) (t : List Nat) (h34 : b ≠ 34) (h92 : b ≠ 92)
    (hc : ¬(b < 32)) :
    jsonUnquoteBody (b :: t) = (jsonUnquoteBody t).map (fun s => b :: s) := by
  show jsonUnquoteBodyF (b :: t).length (b :: t) = _
  simp only [List.length_cons, jsonUnquoteBodyF]
  rw [if_neg h34, if_neg h92, if_neg hc]
  rfl

theorem unq_escape (rest : List Nat) (dec r : List Nat)
    (h : readEscape rest = some (dec, r)) :
    jsonUnquoteBody (92 :: rest) = (jsonUnquoteBody r).map (fun s => dec ++ s) := by
  have hl := readEscape_len rest dec r h
  show jsonUnquoteBodyF (92 :: rest).length (92 :: rest) = _
  simp only [List.length_cons, jsonUnquoteBodyF]
  rw [if_neg (by omega)]
  simp only [if_true, h]
  rw [unqF_congr rest.length r.length r (by omega) le_rfl]
  rfl

theorem unq_chunk (chunk t : List Nat) (h : ∀ x ∈ chunk, 0x80 ≤ x ∧ x ≤ 0xF4) :
    jsonUnquoteBody (chunk ++ t) = (jsonUnquoteBody t).map (fun s => chunk ++ s) := by
  induction chunk with
  | nil => simp
  | cons x chunk ih =>
    have hx := h x (by simp)
    have ht : ∀ y ∈ chunk, 0x80 ≤ y ∧ y ≤ 0xF4 := fun y hy => h y (by simp [hy])
    simp only [List.cons_append]
    rw [unq_pass x (chunk ++ t) (by omega) (by omega) (by omega), ih ht]
    simp only [Option.map_map]
    rfl

theorem hexVal_hexDig : ∀ n, n < 16 → hexVal (hexDig n) = some n := by decide

theorem hexVal_digit : ∀ n, n < 10 → hexVal (48 + n) = some n := by decide


theorem safeGuard_bounds (esc : Bool) (b : Nat)
    (h : (htmlSafeSet b || (!esc && safeSet b)) = true) :
    32 ≤ b ∧ b ≤ 127 ∧ b ≠ 34 ∧ b ≠ 92 := by
  rw [Bool.or_eq_true, Bool.and_eq_true] at h
  rcases h with h | ⟨_, h⟩
  · simp [htmlSafeSet, safeSet] at h
    omega
  · simp [safeSet] at h
    omega

theorem utf8Encode_small (c : Nat) (h : c < 128) : utf8Encode c = [c] := by
  simp [utf8Encode, h]

theorem escBody_rt (esc : Bool) :
    ∀ n v, v.length ≤ n → validUTF8 v = true →
      jsonUnquoteBody (escBody esc v ++ [34]) = some v := by
  intro n
  induction n with
  | zero =>
    intro v h1 _
    have hv : v = [] := List.eq_nil_of_length_eq_zero (Nat.le_zero.mp h1)
    subst hv
    rfl
  | succ n ih =>
    intro v h1 hval
    rcases v with _ | ⟨b, rest⟩
    · rfl
    rw [validUTF8_cons] at hval
    rw [escBody_cons]
    by_cases hb : b < 128
    · rw [if_pos hb] at hval ⊢
      have ihr := ih rest (by simpa using h1) hval
      by_cases hsafe : (htmlSafeSet b || (!esc && safeSet b)) = true
      · rw [if_pos hsafe]
        have hbb := safeGuard_bounds esc b hsafe
        simp only [List.cons_append, List.nil_append, List.append_assoc]
        rw [unq_pass b _ (by omega) (by omega) (by omega), ihr]
        rfl
      · rw [if_neg hsafe]
        by_cases hq : b = 92 ∨ b = 34
        · rw [if_pos hq]
          simp only [List.cons_append, List.nil_append, List.append_assoc]
          rw [unq_escape _ [b] _ (readEscape_simple b b _ (by omega)), ihr]
          rfl
        · rw [if_neg hq]
          by_cases h10 : b = 10
          · rw [if_pos h10]
            simp only [List.cons_append, List.nil_append, List.append_assoc]
            rw [unq_escape _ [10] _ (readEscape_simple 110 10 _ (by omega)), ihr]
            subst h10
            rfl
          · rw [if_neg h10]
            by_cases h13 : b = 13
            · rw [if_pos h13]
              simp only [List.cons_append, List.nil_append, List.append_assoc]
              rw [unq_escape _ [13] _ (readEscape_simple 114 13 _ (by omega)), ihr]
              subst h13
              rfl
            · rw [if_neg h13]
              by_cases h9 : b = 9
              · rw [if_pos h9]
                simp only [List.cons_append, List.nil_append, List.append_assoc]
                rw [unq_escape _ [9] _ (readEscape_simple 116 9 _ (by omega)), ihr]
                subst h9
                rfl
              · rw [if_neg h9]
                simp only [List.cons_append, List.nil_append, List.append_assoc]
                have hh1 : readHex4 (48 :: 48 :: hexDig (b / 16) :: hexDig (b % 16) ::
                    (escBody esc rest ++ [34])) =
                    some (0 * 4096 + 0 * 256 + b / 16 * 16 + b % 16,
                      escBody esc rest ++ [34]) :=
                  readHex4_some _ _ _ _ _ _ _ _ _
                    (hexVal_digit 0 (by omega)) (hexVal_digit 0 (by omega))
                    (hexVal_hexDig (b / 16) (by omega)) (hexVal_hexDig (b % 16) (by omega))
                rw [show 0 * 4096 + 0 * 256 + b / 16 * 16 + b % 16 = b from by omega] at hh1
                rw [unq_escape _ (utf8Encode b) _
                    (readEscape_u _ b _ (readUEscape_basic _ b _ hh1 (by omega))), ihr]
                rw [utf8Encode_small b hb]
                rfl
    · rw [if_neg hb] at hval ⊢
      rcases hd : decodeRuneInString (b :: rest) with ⟨c, s⟩
      rw [hd] at hval
      dsimp only at hval ⊢
      by_cases herr : c = 65533 ∧ s = 1
      · rw [if_pos herr] at hval
        simp at hval
      · rw [if_neg herr] at hval ⊢
        obtain ⟨⟨hs1, hs2⟩, htake, hcge, hmono, hbytes⟩ :=
          decodeRune_spec b rest c s hd (by omega) herr
        have ihd := ih ((b :: rest).drop s)
          (by simp only [List.length_drop, List.length_cons]; simp at h1; omega) hval
        by_cases h28 : c = 8232 ∨ c = 8233
        · rw [if_pos h28]
          simp only [List.cons_append, List.nil_append, List.append_assoc]
          have hcm : c % 16 < 16 := by omega
          have hh1 : readHex4 (50 :: 48 :: 50 :: hexDig (c % 16) ::
              (escBody esc ((b :: rest).drop s) ++ [34])) =
              some (2 * 4096 + 0 * 256 + 2 * 16 + c % 16,
                escBody esc ((b :: rest).drop s) ++ [34]) :=
            readHex4_some _ _ _ _ _ _ _ _ _
              (hexVal_digit 2 (by omega)) (hexVal_digit 0 (by omega))
              (hexVal_digit 2 (by omega)) (hexVal_hexDig (c % 16) hcm)
          rw [show 2 * 4096 + 0 * 256 + 2 * 16 + c % 16 = c from by omega] at hh1
          rw [unq_escape _ (utf8Encode c) _
              (readEscape_u _ c _ (readUEscape_basic _ c _ hh1 (by omega))), ihd]
          rw [← htake]
          simp
        · rw [if_neg h28]
          simp only [List.append_assoc]
          rw [unq_chunk _ _ hbytes, ihd]
          simp [← htake]

theorem jsonUnquote_quote (x : List Nat) :
    jsonUnquote (34 :: x) = jsonUnquoteBody x := rfl

theorem stringBytes_rt (esc : Bool) (v : List Nat) (hval : validUTF8 v = true) :
    jsonUnquote (stringBytes v esc) = some v := by
  show jsonUnquote (34 :: (stringLoop esc v.length v ++ [34])) = some v
  rw [jsonUnquote_quote]
  exact escBody_rt esc v.length v le_rfl hval

theorem hexDig_bounds :
    ∀ n, n < 16 → 48 ≤ hexDig n ∧ hexDig n ≤ 102 ∧
      hexDig n ≠ 60 ∧ hexDig n ≠ 62 ∧ hexDig n ≠ 38 := by decide

theorem safeGuard_html (esc : Bool) (b : Nat)
    (h : (htmlSafeSet b || (!esc && safeSet b)) = true) (he : esc = true) :
    b ≠ 60 ∧ b ≠ 62 ∧ b ≠ 38 := by
  subst he
  simp only [Bool.not_true, Bool.false_and, Bool.or_false] at h
  simp [htmlSafeSet, safeSet] at h
  omega

theorem escBody_bounds (esc : Bool) :
    ∀ n v, v.length ≤ n → ∀ x, x ∈ escBody esc v →
      32 ≤ x ∧ (esc = true → x ≠ 60 ∧ x ≠ 62 ∧ x ≠ 38) := by
  intro n
  induction n with
  | zero =>
    intro v h1 x hx
    have hv : v = [] := List.eq_nil_of_length_eq_zero (Nat.le_zero.mp h1)
    subst hv
    simp [escBody, stringLoop] at hx
  | succ n ih =>
    intro v h1 x hx
    rcases v with _ | ⟨b, rest⟩
    · simp [escBody, stringLoop] at hx
    rw [escBody_cons] at hx
    by_cases hb : b < 128
    · rw [if_pos hb] at hx
      rw [List.mem_append] at hx
      rcases hx with hx | hx
      · by_cases hsafe : (htmlSafeSet b || (!esc && safeSet b)) = true
        · rw [if_pos hsafe] at hx
          simp only [List.mem_singleton] at hx
          subst hx
          exact ⟨(safeGuard_bounds esc x hsafe).1, safeGuard_html esc x hsafe⟩
        · rw [if_neg hsafe] at hx
          by_cases hq : b = 92 ∨ b = 34
          · rw [if_pos hq] at hx
            simp only [List.mem_cons, List.not_mem_nil, or_false] at hx
            rcases hx with rfl | rfl <;> refine ⟨by omega, fun _ => by omega⟩
          · rw [if_neg hq] at hx
            by_cases h10 : b = 10
            · rw [if_pos h10] at hx
              simp only [List.mem_cons, List.not_mem_nil, or_false] at hx
              rcases hx with rfl | rfl <;> refine ⟨by omega, fun _ => by omega⟩
            · rw [if_neg h10] at hx
              by_cases h13 : b = 13
              · rw [if_pos h13] at hx
                simp only [List.mem_cons, List.not_mem_nil, or_false] at hx
                rcases hx with rfl | rfl <;> refine ⟨by omega, fun _ => by omega⟩
              · rw [if_neg h13] at hx
                by_cases h9 : b = 9
                · rw [if_pos h9] at hx
                  simp only [List.mem_cons, List.not_mem_nil, or_false] at hx
                  rcases hx with rfl | rfl <;> refine ⟨by omega, fun _ => by omega⟩
                · rw [if_neg h9] at hx
                  have hd1 := hexDig_bounds (b / 16) (by omega)
                  have hd2 := hexDig_bounds (b % 16) (by omega)
                  simp only [List.mem_cons, List.not_mem_nil, or_false] at hx
                  rcases hx with rfl | rfl | rfl | rfl | rfl | rfl <;>
                    refine ⟨by omega, fun _ => by omega⟩
      · exact ih rest (by simpa using h1) x hx
    · rw [if_neg hb] at hx
      rcases hd : decodeRuneInString (b :: rest) with ⟨c, s⟩
      rw [hd] at hx
      dsimp only at hx
      by_cases herr : c = 65533 ∧ s = 1
      · rw [if_pos herr] at hx
        rw [List.mem_append] at hx
        rcases hx with hx | hx
        · simp only [List.mem_cons, List.not_mem_nil, or_false] at hx
          rcases hx with rfl | rfl | rfl | rfl | rfl | rfl <;>
            refine ⟨by omega, fun _ => by omega⟩
        · exact ih rest (by simpa using h1) x hx
      · rw [if_neg herr] at hx
        obtain ⟨⟨hs1, hs2⟩, htake, hcge, hmono, hbytes⟩ :=
          decodeRune_spec b rest c s hd (by omega) herr
        have hdl : ((b :: rest).drop s).length ≤ n := by
          simp only [List.length_drop, List.length_cons]
          simp at h1
          omega
        by_cases h28 : c = 8232 ∨ c = 8233
        · rw [if_pos h28] at hx
          rw [List.mem_append] at hx
          rcases hx with hx | hx
          · have hd1 := hexDig_bounds (c % 16) (by omega)
            simp only [List.mem_cons, List.not_mem_nil, or_false] at hx
            rcases hx with rfl | rfl | rfl | rfl | rfl | rfl <;>
              refine ⟨by omega, fun _ => by omega⟩
          · exact ih _ hdl x hx
        · rw [if_neg h28] at hx
          rw [List.mem_append] at hx
          rcases hx with hx | hx
          · have := hbytes x hx
            refine ⟨by omega, fun _ => by omega⟩
          · exact ih _ hdl x hx

theorem escBody_append (esc : Bool) :
    ∀ n p, p.length ≤ n → validUTF8 p = true → ∀ u,
      escBody esc (p ++ u) = escBody esc p ++ escBody esc u := by
  intro n
  induction n with
  | zero =>
    intro p h1 _ u
    have hp : p = [] := List.eq_nil_of_length_eq_zero (Nat.le_zero.mp h1)
    subst hp
    simp [escBody, stringLoop]
  | succ n ih =>
    intro p h1 hval u
    rcases p with _ | ⟨b, rest⟩
    · simp [escBody, stringLoop]
    rw [validUTF8_cons] at hval
    simp only [List.cons_append]
    rw [escBody_cons esc b (rest ++ u), escBody_cons esc b rest]
    by_cases hb : b < 128
    · rw [if_pos hb] at hval ⊢
      rw [if_pos hb]
      rw [ih rest (by simpa using h1) hval u, List.append_assoc]
    · rw [if_neg hb] at hval ⊢
      rw [if_neg hb]
      rcases hd : decodeRuneInString (b :: rest) with ⟨c, s⟩
      rw [hd] at hval
      dsimp only at hval ⊢
      by_cases herr : c = 65533 ∧ s = 1
      · rw [if_pos herr] at hval
        simp at hval
      · rw [if_neg herr] at hval
        obtain ⟨⟨hs1, hs2⟩, htake, hcge, hmono, hbytes⟩ :=
          decodeRune_spec b rest c s hd (by omega) herr
        have hmu := hmono u
        rw [hmu]
        dsimp only
        rw [if_neg herr, if_neg herr]
        have hdrop : (b :: (rest ++ u)).drop s = (b :: rest).drop s ++ u := by
          rw [show b :: (rest ++ u) = (b :: rest) ++ u from rfl,
              List.drop_append_eq_append_drop]
          rw [show s - (b :: rest).length = 0 from by
            have hs2b := hs2
            simp only [List.length_cons] at hs2b ⊢
            omega]
          simp
        have htk : (b :: (rest ++ u)).take s = (b :: rest).take s := by
          rw [show b :: (rest ++ u) = (b :: rest) ++ u from rfl,
              List.take_append_eq_append_take]
          rw [show s - (b :: rest).length = 0 from by
            have hs2b := hs2
            simp only [List.length_cons] at hs2b ⊢
            omega]
          simp
        have hdl : ((b :: rest).drop s).length ≤ n := by
          simp only [List.length_drop, List.length_cons]
          simp at h1
          omega
        by_cases h28 : c = 8232 ∨ c = 8233
        · rw [if_pos h28, if_pos h28, hdrop, ih _ hdl hval u, List.append_assoc]
        · rw [if_neg h28, if_neg h28, hdrop, htk, ih _ hdl hval u]
          simp [List.append_assoc]

-- ---------------------------------------------------------------------------
-- Claim theorems
-- ---------------------------------------------------------------------------


/-- C2 counterexample: the claim quantifies over all strings, but for the
one-byte string holding 0xFF (invalid UTF-8) the escaper emits the
replacement-character escape, which a standard JSON decoder decodes to the
replacement character bytes, not to the original byte. -/
theorem escape_roundtrip_cx :
    ¬(jsonUnquote (stringBytes [255] false) = some [255]) := by decide

/-- C2 (amended): for every valid-UTF-8 string S the escaper output, decoded
by a standard JSON decoder, yields exactly S (for either escape mode); and
for every string S the htmlSafe output contains no literal 60, 62 or 38
byte. -/
theorem escape_roundtrip_amended :
    (∀ (esc : Bool) (v : List Nat), validUTF8 v = true →
      jsonUnquote (stringBytes v esc) = some v) ∧
    (∀ (v : List Nat) (x : Nat), x ∈ stringBytes v true →
      x ≠ 60 ∧ x ≠ 62 ∧ x ≠ 38) := by
  constructor
  · intro esc v h
    exact stringBytes_rt esc v h
  · intro v x hx
    simp only [stringBytes, List.mem_cons, List.mem_append,
      List.mem_singleton] at hx
    rcases hx with (rfl | hx) | (rfl | h0)
    · exact ⟨by omega, by omega, by omega⟩
    · exact (escBody_bounds true v.length v le_rfl x hx).2 rfl
    · exact ⟨by omega, by omega, by omega⟩
    · simp at h0

theorem escape_roundtrip_amended_witness :
    validUTF8 [104, 105] = true ∧
    jsonUnquote (stringBytes [104, 105] false) = some [104, 105] ∧
    (60 ∈ stringBytes [60] true → False) :=
  ⟨by decide, escape_roundtrip_amended.1 false [104, 105] (by decide),
   fun hx => (escape_roundtrip_amended.2 [60] 60 hx).1 rfl⟩

/-- C3: at any position where decoding fails (a valid-UTF-8 prefix followed
by a byte at which utf8 decoding errors), the escaper emits the
six-character replacement escape for that byte and then continues scanning
the remainder exactly as it would scan it alone: no truncation. -/
theorem escape_invalid_utf8_resumes (esc : Bool) (p s : List Nat) (b : Nat)
    (hp : validUTF8 p = true) (hb : 0x80 ≤ b)
    (hinv : decodeRuneInString (b :: s) = (0xFFFD, 1)) :
    stringBytes (p ++ b :: s) esc =
      34 :: (escBody esc p ++ ([92, 117, 102, 102, 102, 100] ++ escBody esc s)) ++ [34] := by
  have happ := escBody_append esc p.length p le_rfl hp (b :: s)
  show 34 :: escBody esc (p ++ b :: s) ++ [34] = _
  rw [happ, escBody_cons]
  rw [if_neg (by omega), hinv]
  dsimp only
  rw [if_pos ⟨rfl, rfl⟩]

theorem escape_invalid_utf8_resumes_witness :
    validUTF8 [97] = true ∧
    decodeRuneInString (255 :: [98]) = (0xFFFD, 1) ∧
    stringBytes ([97] ++ 255 :: [98]) false =
      [34, 97, 92, 117, 102, 102, 102, 100, 98, 34] :=
  ⟨by decide, by decide,
   (escape_invalid_utf8_resumes false [97] [98] 255 (by decide) (by decide)
      (by decide)).trans (by decide)⟩


theorem time_unfold (t : GoTime) :
    Event.time t =
      [34,
       byteOf (48 + t.year / 10 / 10 / 10),
       byteOf (48 + t.year / 10 / 10 - 10 * (t.year / 10 / 10 / 10)),
       byteOf (48 + t.year / 10 - 10 * (t.year / 10 / 10)),
       byteOf (48 + t.year - 10 * (t.year / 10)),
       45,
       byteOf (48 + t.month / 10),
       byteOf (48 + t.month - 10 * (t.month / 10)),
       45,
       byteOf (48 + t.day / 10),
       byteOf (48 + t.day - 10 * (t.day / 10)),
       84,
       byteOf (48 + t.hour / 10),
       byteOf (48 + t.hour - 10 * (t.hour / 10)),
       58,
       byteOf (48 + t.minute / 10),
       byteOf (48 + t.minute - 10 * (t.minute / 10)),
       58,
       byteOf (48 + t.second / 10),
       byteOf (48 + t.second - 10 * (t.second / 10)),
       46,
       byteOf (48 + t.nanosecond / 1000000 / 10 / 10),
       byteOf (48 + t.nanosecond / 1000000 / 10 -
         10 * (t.nanosecond / 1000000 / 10 / 10)),
       byteOf (48 + t.nanosecond / 1000000 - 10 * (t.nanosecond / 1000000 / 10)),
       90, 34] := rfl

theorem goTime_valid_bounds (t : GoTime) (h : t.valid = true) :
    1000 ≤ t.year ∧ t.year ≤ 9999 ∧ 1 ≤ t.month ∧ t.month ≤ 12 ∧
    1 ≤ t.day ∧ t.day ≤ 31 ∧ t.hour ≤ 23 ∧ t.minute ≤ 59 ∧ t.second ≤ 59 ∧
    t.nanosecond ≤ 999999999 := by
  simpa [GoTime.valid] using h

/-- C5 counterexample: at a timestamp with zero milliseconds the fast
formatter still writes three zero digits, while the general-purpose
formatter with the exact layout 2006-01-02T15:04:05.999Z drops the
fractional part entirely. -/
theorem time_layout999_cx :
    ¬(Event.time ⟨2006, 1, 2, 15, 4, 5, 0⟩ =
      34 :: (goFormatMilli999 ⟨2006, 1, 2, 15, 4, 5, 0⟩ ++ [34])) := by decide

/-- C5 (amended): for every timestamp with UTC year 1000 to 9999 and valid
clock fields, the fast formatter output is byte-identical to the
general-purpose formatter with the fixed-width layout
2006-01-02T15:04:05.000Z (the same layout with trailing zeros retained),
wrapped in the quotes the fast path also writes; sub-millisecond precision
is truncated, not rounded. -/
theorem time_matches_fixed_layout (t : GoTime) (hv : t.valid = true) :
    Event.time t = 34 :: (goFormatMilli000 t ++ [34]) := by
  obtain ⟨h1, h2, h3, h4, h5, h6, h7, h8, h9, h10⟩ := goTime_valid_bounds t hv
  rw [time_unfold]
  simp only [goFormatMilli000, pad4, pad3, pad2, byteOf, List.cons_append,
    List.nil_append, List.append_assoc]
  simp only [List.cons.injEq, and_true]
  repeat' apply And.intro
  all_goals first | trivial | omega

theorem time_matches_fixed_layout_witness :
    GoTime.valid ⟨2008, 12, 31, 23, 59, 58, 987654321⟩ = true ∧
    Event.time ⟨2008, 12, 31, 23, 59, 58, 987654321⟩ =
      34 :: (goFormatMilli000 ⟨2008, 12, 31, 23, 59, 58, 987654321⟩ ++ [34]) :=
  ⟨by decide, time_matches_fixed_layout ⟨2008, 12, 31, 23, 59, 58, 987654321⟩ (by decide)⟩

/-- C4 counterexample: the emitted literal is 26 bytes long counting the
surrounding quote characters (24 between them), not 24 as the claim
states. -/
theorem time_width_cx :
    ¬((Event.time ⟨2006, 1, 2, 15, 4, 5, 987654321⟩).length = 24) := by decide

/-- C4 (amended): for every timestamp the fast formatter emits exactly 26
bytes starting and ending with a quote (24 characters of content between
the quotes), and for every timestamp with valid clock fields the content is
the fixed-width digit template YYYY-MM-DDTHH:MM:SS.mmmZ produced by
overwriting the template offsets with computed decimal digits. -/
theorem time_fixed_width_amended :
    (∀ t : GoTime, (Event.time t).length = 26 ∧
      (Event.time t).head? = some 34 ∧ (Event.time t).getLast? = some 34) ∧
    (∀ t : GoTime, t.valid = true →
      Event.time t = 34 :: (pad4 t.year ++ [45] ++ pad2 t.month ++ [45] ++
        pad2 t.day ++ [84] ++ pad2 t.hour ++ [58] ++ pad2 t.minute ++ [58] ++
        pad2 t.second ++ [46] ++ pad3 (t.nanosecond / 1000000) ++ [90, 34])) := by
  constructor
  · intro t
    rw [time_unfold]
    refine ⟨rfl, rfl, rfl⟩
  · intro t hv
    obtain ⟨h1, h2, h3, h4, h5, h6, h7, h8, h9, h10⟩ := goTime_valid_bounds t hv
    rw [time_unfold]
    simp only [pad4, pad3, pad2, byteOf, List.cons_append, List.nil_append,
      List.append_assoc]
    simp only [List.cons.injEq, and_true]
    repeat' apply And.intro
    all_goals first | trivial | omega

theorem time_fixed_width_amended_witness :
    (Event.time ⟨2008, 12, 31, 23, 59, 58, 987654321⟩).length = 26 ∧
    GoTime.valid ⟨2008, 12, 31, 23, 59, 58, 987654321⟩ = true ∧
    Event.time ⟨2008, 12, 31, 23, 59, 58, 987654321⟩ =
      34 :: (pad4 2008 ++ [45] ++ pad2 12 ++ [45] ++ pad2 31 ++ [84] ++
        pad2 23 ++ [58] ++ pad2 59 ++ [58] ++ pad2 58 ++ [46] ++
        pad3 987 ++ [90, 34]) :=
  ⟨(time_fixed_width_amended.1 ⟨2008, 12, 31, 23, 59, 58, 987654321⟩).1,
   by decide,
   time_fixed_width_amended.2 ⟨2008, 12, 31, 23, 59, 58, 987654321⟩ (by decide)⟩


/-- C1: WithLevel returns an active (non-nil) Event iff the requested level
is at least the Logger minimum level; below the threshold it returns the
nil sentinel directly, performing no buffer, timestamp or header work. -/
theorem gate_withLevel_iff (l : Logger) (level : Nat) (now : GoTime)
    (ci : Option (List Nat × GoInt)) (afmt : List Nat → GoTime → List Nat) :
    ((l.WithLevel level now ci afmt).isSome = true ↔ l.Level ≤ level) ∧
    (level < l.Level → l.WithLevel level now ci afmt = none) := by
  constructor
  · unfold Logger.WithLevel
    by_cases h : level < l.Level
    · rw [if_pos h]
      simp
      omega
    · rw [if_neg h]
      simp
      omega
  · intro h
    unfold Logger.WithLevel
    rw [if_pos h]

theorem gate_withLevel_iff_witness :
    (Logger.mk 2 false false [] []).WithLevel 1 ⟨2008, 1, 1, 0, 0, 0, 0⟩ none
      (fun _ _ => []) = none ∧
    ((Logger.mk 2 false false [] []).WithLevel 3 ⟨2008, 1, 1, 0, 0, 0, 0⟩ none
      (fun _ _ => [])).isSome = true :=
  ⟨(gate_withLevel_iff (Logger.mk 2 false false [] []) 1 ⟨2008, 1, 1, 0, 0, 0, 0⟩
      none (fun _ _ => [])).2 (by decide),
   ((gate_withLevel_iff (Logger.mk 2 false false [] []) 3 ⟨2008, 1, 1, 0, 0, 0, 0⟩
      none (fun _ _ => [])).1).mpr (by decide)⟩

/-- C6: every field-append method invoked on the inactive (nil) event is a
no-op returning the same inactive sentinel, and the terminal calls on the
inactive event perform no write. -/
theorem nil_event_noop :
    (∀ k t afmt, Event.Time none k t afmt = none) ∧
    (∀ u, Event.Timestamp none u = none) ∧
    (∀ k b, Event.Bool none k b = none) ∧
    (∀ k bs, Event.Bools none k bs = none) ∧
    (∀ k d, Event.Dur none k d = none) ∧
    (∀ k ds, Event.Durs none k ds = none) ∧
    (∀ e, Event.Err none e = none) ∧
    (∀ k es, Event.Errs none k es = none) ∧
    (∀ k f, Event.Float64 none k f = none) ∧
    (∀ k fs, Event.Floats64 none k fs = none) ∧
    (∀ k fs, Event.Floats32 none k fs = none) ∧
    (∀ k i, Event.Int64 none k i = none) ∧
    (∀ k u, Event.Uint64 none k u = none) ∧
    (∀ k f, Event.Float32 none k f = none) ∧
    (∀ k i, Event.Int none k i = none) ∧
    (∀ k i, Event.Int32 none k i = none) ∧
    (∀ k i, Event.Int16 none k i = none) ∧
    (∀ k i, Event.Int8 none k i = none) ∧
    (∀ k u, Event.Uint32 none k u = none) ∧
    (∀ k u, Event.Uint16 none k u = none) ∧
    (∀ k u, Event.Uint8 none k u = none) ∧
    (∀ k r, Event.RawJSON none k r = none) ∧
    (∀ k v, Event.Str none k v = none) ∧
    (∀ k vs, Event.Strs none k vs = none) ∧
    (∀ k v, Event.Bytes none k v = none) ∧
    (∀ k m, Event.Interface none k m = none) ∧
    (∀ ci, Event.Caller none ci = none) ∧
    (∀ s1 s2, Event.Send none s1 s2 = []) ∧
    (∀ m s1 s2, Event.Msg none m s1 s2 = []) := by
  repeat' apply And.intro
  all_goals intros
  all_goals rfl

/-- C7: when the external marshaler fails with message m, Interface writes
the field value as the escaped string beginning marshaling error: followed
by m, and the record is not aborted or corrupted: a subsequent append and
the terminal call still produce the full line, written as one buffer. -/
theorem interface_marshal_error_inline (ev : Event)
    (k m k2 v2 msg st1 st2 : List Nat) :
    Event.Interface (some ev) k (Except.error m) =
      some { ev with buf := (ev.buf ++ Event.key 44 k ++
        stringBytes (marshalingErrorMsg ++ m) ev.escapeHTML) } ∧
    (Event.Msg (Event.Str (Event.Interface (some ev) k (Except.error m)) k2 v2)
        msg st1 st2).head? =
      some (ev.buf ++ Event.key 44 k ++
        stringBytes (marshalingErrorMsg ++ m) ev.escapeHTML ++
        Event.key 44 k2 ++ stringBytes v2 ev.escapeHTML ++
        messageHeader ++ stringBytes msg ev.escapeHTML ++ [125, 10]) := by
  refine ⟨rfl, ?_⟩
  simp [Event.Interface, Event.Str, Event.Msg, List.append_assoc]

/-- C10: when the external marshaler succeeds with output m, Interface
re-encodes m as a single escaped, quoted JSON string literal rather than
embedding it as raw JSON; in particular marshaling the number 3 under key
k yields the field bytes of ,"k":"3". -/
theorem interface_marshal_ok_quoted (ev : Event) (k m : List Nat) :
    Event.Interface (some ev) k (Except.ok m) =
      some { ev with buf := (ev.buf ++ Event.key 44 k ++
        stringBytes m ev.escapeHTML) } ∧
    (stringBytes m ev.escapeHTML).head? = some 34 ∧
    (stringBytes m ev.escapeHTML).getLast? = some 34 ∧
    (Event.Interface (some (Event.mk [] false false [])) [107]
      (Except.ok [51])).map Event.buf = some [44, 34, 107, 34, 58, 34, 51, 34] := by
  refine ⟨rfl, rfl, ?_, by decide⟩
  show (34 :: (stringLoop ev.escapeHTML m.length m ++ [34])).getLast? = some 34
  rw [show (34 : Nat) :: (stringLoop ev.escapeHTML m.length m ++ [34]) =
    (34 :: stringLoop ev.escapeHTML m.length m) ++ 34 :: [] from by simp]
  rw [List.getLast?_append_cons]
  rfl


theorem applyOp_some (ev : Event) (op : FieldOp) :
    applyOp (some ev) op =
      some { ev with buf := ev.buf ++ opBytes ev.escapeHTML ev.timeFormat op } := by
  cases op with
  | err m =>
    cases m <;> simp [applyOp, Event.Err, opBytes, List.append_assoc]
  | iface k r =>
    cases r <;> simp [applyOp, Event.Interface, opBytes, List.append_assoc]
  | tm k t =>
    by_cases h : ev.timeFormat = [] <;>
      simp [applyOp, Event.Time, opBytes, h, List.append_assoc]
  | bool k b => simp [applyOp, Event.Bool, opBytes, List.append_assoc]
  | bools k bs => simp [applyOp, Event.Bools, opBytes, List.append_assoc]
  | int64 k i => simp [applyOp, Event.Int64, opBytes, List.append_assoc]
  | uint64 k u => simp [applyOp, Event.Uint64, opBytes, List.append_assoc]
  | float64 k f => simp [applyOp, Event.Float64, opBytes, List.append_assoc]
  | floats64 k fs => simp [applyOp, Event.Floats64, opBytes, List.append_assoc]
  | str k v => simp [applyOp, Event.Str, opBytes, List.append_assoc]
  | strs k vs => simp [applyOp, Event.Strs, opBytes, List.append_assoc]
  | bytes k v => simp [applyOp, Event.Bytes, opBytes, List.append_assoc]
  | dur k d => simp [applyOp, Event.Dur, opBytes, List.append_assoc]
  | durs k ds => simp [applyOp, Event.Durs, opBytes, List.append_assoc]
  | errs k es => simp [applyOp, Event.Errs, opBytes, List.append_assoc]
  | rawJSON k r => simp [applyOp, Event.RawJSON, opBytes, List.append_assoc]
  | timestamp u => simp [applyOp, Event.Timestamp, opBytes, List.append_assoc]

theorem applyOps_none (ops : List FieldOp) : applyOps none ops = none := by
  induction ops with
  | nil => rfl
  | cons op ops ih =>
    show applyOps (applyOp none op) ops = none
    have h : applyOp none op = none := by
      cases op with
      | err m => cases m <;> rfl
      | iface k r => cases r <;> rfl
      | _ => rfl
    rw [h]
    exact ih

theorem applyOps_some (ops : List FieldOp) :
    ∀ ev : Event, applyOps (some ev) ops =
      some { ev with buf := ev.buf ++ opsBytes ev.escapeHTML ev.timeFormat ops } := by
  induction ops with
  | nil =>
    intro ev
    simp [applyOps, opsBytes]
  | cons op ops ih =>
    intro ev
    show applyOps (applyOp (some ev) op) ops = _
    rw [applyOp_some]
    rw [ih]
    simp [opsBytes, List.append_assoc]

theorem withLevel_pass (l : Logger) (level : Nat) (now : GoTime)
    (ci : Option (List Nat × GoInt)) (afmt : List Nat → GoTime → List Nat)
    (hg : l.Level ≤ level) (hf : l.TimeField = []) (htf : l.TimeFormat = []) :
    l.WithLevel level now ci afmt =
      some { buf := defaultTimeHeader ++ Event.time now ++ levelTag level ++
               (if l.Caller then callerBytes ci else []),
             fatal := level == FatalLevel,
             escapeHTML := l.EscapeHTML,
             timeFormat := [] } := by
  unfold Logger.WithLevel
  rw [if_neg (by omega), hf, htf]
  simp [List.append_assoc]

theorem opBytes_chunk (esc : Bool) (tf : List Nat) (op : FieldOp) :
    ∃ ck cv, opBytes esc tf op = 44 :: fieldChunk ck cv := by
  cases op with
  | err m =>
    cases m with
    | none =>
      exact ⟨[101, 114, 114, 111, 114], [110, 117, 108, 108], by
        simp [opBytes, fieldChunk]⟩
    | some msg =>
      exact ⟨[101, 114, 114, 111, 114], stringBytes msg esc, by
        simp [opBytes, fieldChunk, List.append_assoc]⟩
  | iface k r =>
    cases r with
    | error msg =>
      exact ⟨k, stringBytes (marshalingErrorMsg ++ msg) esc, by
        simp [opBytes, fieldChunk, Event.key, List.append_assoc]⟩
    | ok m =>
      exact ⟨k, stringBytes m esc, by
        simp [opBytes, fieldChunk, Event.key, List.append_assoc]⟩
  | bool k b =>
    exact ⟨k, boolBytes b, by simp [opBytes, fieldChunk, Event.key, List.append_assoc]⟩
  | bools k bs =>
    exact ⟨k, 91 :: ((bs.map boolBytes).intersperse [44]).flatten ++ [93], by
      simp [opBytes, fieldChunk, Event.key, List.append_assoc]⟩
  | int64 k i =>
    exact ⟨k, appendInt i, by simp [opBytes, fieldChunk, Event.key, List.append_assoc]⟩
  | uint64 k u =>
    exact ⟨k, natDigits u, by simp [opBytes, fieldChunk, Event.key, List.append_assoc]⟩
  | float64 k f =>
    exact ⟨k, f, by simp [opBytes, fieldChunk, Event.key, List.append_assoc]⟩
  | floats64 k fs =>
    exact ⟨k, 91 :: (fs.intersperse [44]).flatten ++ [93], by
      simp [opBytes, fieldChunk, Event.key, List.append_assoc]⟩
  | str k v =>
    exact ⟨k, stringBytes v esc, by simp [opBytes, fieldChunk, Event.key, List.append_assoc]⟩
  | strs k vs =>
    exact ⟨k, 91 :: ((vs.map (fun v => stringBytes v esc)).intersperse [44]).flatten ++ [93], by
      simp [opBytes, fieldChunk, Event.key, List.append_assoc]⟩
  | bytes k v =>
    exact ⟨k, stringBytes v esc, by simp [opBytes, fieldChunk, Event.key, List.append_assoc]⟩
  | dur k d =>
    exact ⟨k, 34 :: (d ++ [34]), by simp [opBytes, fieldChunk, Event.key, List.append_assoc]⟩
  | durs k ds =>
    exact ⟨k, 91 :: ((ds.map (fun d => 34 :: (d ++ [34]))).intersperse [44]).flatten ++ [93], by
      simp [opBytes, fieldChunk, Event.key, List.append_assoc]⟩
  | errs k es =>
    exact ⟨k, 91 :: ((es.map (fun m =>
        match m with
        | none => [110, 117, 108, 108]
        | some msg => stringBytes msg esc)).intersperse [44]).flatten ++ [93], by
      simp [opBytes, fieldChunk, Event.key, List.append_assoc]
      try rfl⟩
  | rawJSON k r =>
    exact ⟨k, r, by simp [opBytes, fieldChunk, Event.key, List.append_assoc]⟩
  | tm k t =>
    exact ⟨k, if tf = [] then Event.time t else 34 :: (tf ++ [34]), by
      simp [opBytes, fieldChunk, Event.key, List.append_assoc]⟩
  | timestamp u =>
    exact ⟨[116, 105, 109, 101, 115, 116, 97, 109, 112], appendInt u, by
      simp [opBytes, fieldChunk, Event.key, List.append_assoc]⟩

theorem levelTag_chunk (level : Nat) :
    levelTag level = [] ∨ ∃ ck cv, levelTag level = 44 :: fieldChunk ck cv := by
  unfold levelTag
  split_ifs
  · exact Or.inr ⟨[108, 101, 118, 101, 108], [34, 100, 101, 98, 117, 103, 34], by
      simp [fieldChunk]⟩
  · exact Or.inr ⟨[108, 101, 118, 101, 108], [34, 105, 110, 102, 111, 34], by
      simp [fieldChunk]⟩
  · exact Or.inr ⟨[108, 101, 118, 101, 108], [34, 119, 97, 114, 110, 34], by
      simp [fieldChunk]⟩
  · exact Or.inr ⟨[108, 101, 118, 101, 108], [34, 101, 114, 114, 111, 114, 34], by
      simp [fieldChunk]⟩
  · exact Or.inr ⟨[108, 101, 118, 101, 108], [34, 102, 97, 116, 97, 108, 34], by
      simp [fieldChunk]⟩
  · exact Or.inl rfl

theorem callerBytes_chunk (ci : Option (List Nat × GoInt)) :
    ∃ cv, callerBytes ci = 44 :: fieldChunk [99, 97, 108, 108, 101, 114] cv := by
  refine ⟨34 :: ((match ci with
    | none => ([63, 63, 63], (1 : GoInt))
    | some (f, ln) => (lastSegment f, ln)).1 ++ [58] ++
    appendInt (if (match ci with
    | none => ([63, 63, 63], (1 : GoInt))
    | some (f, ln) => (lastSegment f, ln)).2 < 0 then 0 else (match ci with
    | none => ([63, 63, 63], (1 : GoInt))
    | some (f, ln) => (lastSegment f, ln)).2) ++ [34]), ?_⟩
  simp [callerBytes, fieldChunk, List.append_assoc]
  try rfl

theorem objectShape_append_chunk (buf : List Nat) (h : objectShape buf)
    (ck cv : List Nat) : objectShape (buf ++ 44 :: fieldChunk ck cv) := by
  obtain ⟨k0, v0, rest, hrest, hbuf⟩ := h
  refine ⟨k0, v0, rest ++ [44 :: fieldChunk ck cv], ?_, ?_⟩
  · intro c hc
    rw [List.mem_append] at hc
    rcases hc with hc | hc
    · exact hrest c hc
    · simp only [List.mem_singleton] at hc
      subst hc
      exact ⟨ck, cv, rfl⟩
  · rw [hbuf]
    simp [List.append_assoc]

theorem objectShape_append_opsBytes (esc : Bool) (tf : List Nat)
    (ops : List FieldOp) :
    ∀ buf, objectShape buf → objectShape (buf ++ opsBytes esc tf ops) := by
  induction ops with
  | nil =>
    intro buf h
    simpa [opsBytes] using h
  | cons op ops ih =>
    intro buf h
    obtain ⟨ck, cv, hop⟩ := opBytes_chunk esc tf op
    have h2 := objectShape_append_chunk buf h ck cv
    have := ih (buf ++ 44 :: fieldChunk ck cv) h2
    rw [show opsBytes esc tf (op :: ops) = opBytes esc tf op ++ opsBytes esc tf ops from by
      simp [opsBytes]]
    rw [hop, ← List.append_assoc]
    exact this

/-- C9: every buffer reachable from a gate-passing WithLevel through any
chain of field-append calls is an object prefix: an opening brace, a first
quoted-key field, then zero or more comma-led quoted-key fields, so a
closing brace may be appended at any point. -/
theorem buffer_object_prefix_invariant (l : Logger) (level : Nat) (now : GoTime)
    (ci : Option (List Nat × GoInt)) (afmt : List Nat → GoTime → List Nat)
    (ops : List FieldOp) (ev : Event)
    (h : applyOps (l.WithLevel level now ci afmt) ops = some ev) :
    objectShape ev.buf := by
  by_cases hg : level < l.Level
  · unfold Logger.WithLevel at h
    rw [if_pos hg, applyOps_none] at h
    simp at h
  · unfold Logger.WithLevel at h
    rw [if_neg hg] at h
    rw [applyOps_some] at h
    rw [Option.some_inj] at h
    subst h
    dsimp only
    apply objectShape_append_opsBytes
    have hbase : objectShape
        ((if l.TimeField = [] then defaultTimeHeader else Event.key 123 l.TimeField) ++
          (if l.TimeFormat = [] then Event.time now
           else 34 :: (afmt l.TimeFormat now ++ [34]))) := by
      by_cases hf : l.TimeField = []
      · rw [if_pos hf]
        exact ⟨[116, 105, 109, 101],
          (if l.TimeFormat = [] then Event.time now
           else 34 :: (afmt l.TimeFormat now ++ [34])), [], by simp,
          by simp [defaultTimeHeader, fieldChunk]⟩
      · rw [if_neg hf]
        exact ⟨l.TimeField,
          (if l.TimeFormat = [] then Event.time now
           else 34 :: (afmt l.TimeFormat now ++ [34])), [], by simp,
          by simp [Event.key, fieldChunk, List.append_assoc]⟩
    have hlvl : objectShape
        ((if l.TimeField = [] then defaultTimeHeader else Event.key 123 l.TimeField) ++
          (if l.TimeFormat = [] then Event.time now
           else 34 :: (afmt l.TimeFormat now ++ [34])) ++ levelTag level) := by
      rcases levelTag_chunk level with he | ⟨ck, cv, hc⟩
      · rw [he]
        simpa using hbase
      · rw [hc]
        exact objectShape_append_chunk _ hbase ck cv
    by_cases hcal : l.Caller
    · rw [if_pos hcal]
      obtain ⟨cv, hcb⟩ := callerBytes_chunk ci
      rw [hcb]
      exact objectShape_append_chunk _ hlvl [99, 97, 108, 108, 101, 114] cv
    · rw [if_neg hcal]
      simpa using hlvl

theorem buffer_object_prefix_invariant_witness :
    applyOps ((Logger.mk 0 false false [] []).WithLevel 1 ⟨2008, 1, 1, 0, 0, 0, 0⟩
        none (fun _ _ => [])) [FieldOp.str [97] [98]] =
      some (Event.mk
        [123, 34, 116, 105, 109, 101, 34, 58, 34, 50, 48, 48, 56, 45, 48, 49,
         45, 48, 49, 84, 48, 48, 58, 48, 48, 58, 48, 48, 46, 48, 48, 48, 90,
         34, 44, 34, 108, 101, 118, 101, 108, 34, 58, 34, 105, 110, 102, 111,
         34, 44, 34, 97, 34, 58, 34, 98, 34] false false []) ∧
    objectShape
      [123, 34, 116, 105, 109, 101, 34, 58, 34, 50, 48, 48, 56, 45, 48, 49,
       45, 48, 49, 84, 48, 48, 58, 48, 48, 58, 48, 48, 46, 48, 48, 48, 90,
       34, 44, 34, 108, 101, 118, 101, 108, 34, 58, 34, 105, 110, 102, 111,
       34, 44, 34, 97, 34, 58, 34, 98, 34] :=
  ⟨by decide,
   buffer_object_prefix_invariant (Logger.mk 0 false false [] []) 1
     ⟨2008, 1, 1, 0, 0, 0, 0⟩ none (fun _ _ => []) [FieldOp.str [97] [98]]
     (Event.mk
        [123, 34, 116, 105, 109, 101, 34, 58, 34, 50, 48, 48, 56, 45, 48, 49,
         45, 48, 49, 84, 48, 48, 58, 48, 48, 58, 48, 48, 46, 48, 48, 48, 90,
         34, 44, 34, 108, 101, 118, 101, 108, 34, 58, 34, 105, 110, 102, 111,
         34, 44, 34, 97, 34, 58, 34, 98, 34] false false [])
     (by decide)⟩

theorem natDigitsF_bounds :
    ∀ f n x, x ∈ natDigitsF f n → 48 ≤ x ∧ x ≤ 57 := by
  intro f
  induction f with
  | zero =>
    intro n x hx
    simp [natDigitsF] at hx
  | succ f ih =>
    intro n x hx
    simp only [natDigitsF] at hx
    split_ifs at hx with h
    · simp only [List.mem_singleton] at hx
      subst hx
      omega
    · rw [List.mem_append] at hx
      rcases hx with hx | hx
      · exact ih (n / 10) x hx
      · simp only [List.mem_singleton] at hx
        subst hx
        omega

theorem appendInt_bounds (i : Int) (x : Nat) (hx : x ∈ appendInt i) :
    45 ≤ x ∧ x ≤ 57 := by
  unfold appendInt at hx
  split_ifs at hx
  · simp only [List.mem_cons] at hx
    rcases hx with rfl | hx
    · omega
    · have := natDigitsF_bounds _ _ x hx
      omega
  · have := natDigitsF_bounds _ _ x hx
    omega

theorem boolBytes_noNL (b : Bool) (x : Nat) (hx : x ∈ boolBytes b) : 32 ≤ x := by
  cases b <;> simp [boolBytes] at hx <;> omega

theorem stringBytes_noNL (v : List Nat) (esc : Bool) (x : Nat)
    (hx : x ∈ stringBytes v esc) : x ≠ 10 := by
  simp only [stringBytes, List.mem_cons, List.mem_append,
    List.mem_singleton] at hx
  rcases hx with (rfl | hx) | (rfl | h0)
  · omega
  · have := (escBody_bounds esc v.length v le_rfl x hx).1
    omega
  · omega
  · simp at h0

theorem time_noNL (t : GoTime) (hv : t.valid = true) (x : Nat)
    (hx : x ∈ Event.time t) : 32 ≤ x := by
  obtain ⟨h1, h2, h3, h4, h5, h6, h7, h8, h9, h10⟩ := goTime_valid_bounds t hv
  rw [time_unfold] at hx
  simp only [byteOf, List.mem_cons, List.not_mem_nil, or_false] at hx
  rcases hx with rfl | rfl | rfl | rfl | rfl | rfl | rfl | rfl | rfl | rfl |
    rfl | rfl | rfl | rfl | rfl | rfl | rfl | rfl | rfl | rfl | rfl | rfl |
    rfl | rfl | rfl | rfl <;> omega

theorem levelTag_noNL (level : Nat) (x : Nat) (hx : x ∈ levelTag level) :
    32 ≤ x := by
  unfold levelTag at hx
  split_ifs at hx <;> simp at hx <;> omega

theorem lastSegment_sub (f : List Nat) (x : Nat) (hx : x ∈ lastSegment f) :
    x ∈ f := by
  unfold lastSegment at hx
  rw [List.mem_reverse] at hx
  have := (List.takeWhile_sublist (fun b => b ≠ 47)).mem hx
  rwa [List.mem_reverse] at this

theorem callerBytes_noNL (ci : Option (List Nat × GoInt))
    (hc : ∀ f ln, ci = some (f, ln) → noNewline f = true)
    (x : Nat) (hx : x ∈ callerBytes ci) : x ≠ 10 := by
  rcases ci with _ | ⟨f, ln⟩ <;>
    simp only [callerBytes, List.mem_append, List.mem_cons,
      List.not_mem_nil, List.mem_singleton, or_false] at hx
  · rcases hx with ((((rfl | rfl | rfl | rfl | rfl | rfl | rfl | rfl | rfl |
      rfl | rfl) | rfl | rfl | rfl) | rfl) | hd) | rfl
    all_goals try omega
    have := appendInt_bounds _ x hd
    omega
  · have hf := hc f ln rfl
    rcases hx with ((((rfl | rfl | rfl | rfl | rfl | rfl | rfl | rfl | rfl |
      rfl | rfl) | hseg) | rfl) | hd) | rfl
    all_goals try omega
    · have := lastSegment_sub f x hseg
      simp [noNewline, List.contains] at hf
      intro hx10
      subst hx10
      exact absurd this (by simpa using hf)
    · have := appendInt_bounds _ x hd
      omega

theorem noNewline_mem (k : List Nat) (h : noNewline k = true) (x : Nat)
    (hx : x ∈ k) : x ≠ 10 := by
  intro he
  subst he
  simp [noNewline, List.contains] at h
  exact absurd hx (by simpa using h)

theorem key_noNL (k : List Nat) (h : noNewline k = true) (x : Nat)
    (hx : x ∈ Event.key 44 k) : x ≠ 10 := by
  simp only [Event.key, List.mem_cons, List.mem_append,
    List.mem_singleton, List.not_mem_nil, or_false] at hx
  rcases hx with rfl | rfl | hx | rfl | rfl
  · omega
  · omega
  · exact noNewline_mem k h x hx
  · omega
  · omega

theorem mem_intersperse_flatten (ls : List (List Nat)) (x : Nat)
    (hx : x ∈ (ls.intersperse [44]).flatten) : x = 44 ∨ ∃ m ∈ ls, x ∈ m := by
  induction ls with
  | nil => simp at hx
  | cons a t ih =>
    rcases t with _ | ⟨b, t2⟩
    · simp only [List.intersperse_single, List.flatten_cons, List.flatten_nil,
        List.append_nil] at hx
      exact Or.inr ⟨a, by simp, hx⟩
    · rw [List.intersperse_cons_cons] at hx
      simp only [List.flatten_cons, List.mem_append, List.mem_singleton] at hx
      rcases hx with hx | hx | hx
      · exact Or.inr ⟨a, by simp, hx⟩
      · exact Or.inl hx
      · rcases ih (by simpa [List.flatten_cons] using hx) with h | ⟨m, hm, hxm⟩
        · exact Or.inl h
        · exact Or.inr ⟨m, by simp [hm], hxm⟩

theorem opBytes_noNL (esc : Bool) (op : FieldOp) (hc : op.clean = true)
    (x : Nat) (hx : x ∈ opBytes esc [] op) : x ≠ 10 := by
  cases op with
  | bool k b =>
    simp only [opBytes, List.mem_append] at hx
    rcases hx with hx | hx
    · exact key_noNL k (by simpa [FieldOp.clean] using hc) x hx
    · have := boolBytes_noNL b x hx
      omega
  | bools k bs =>
    simp only [opBytes, List.mem_append, List.mem_cons] at hx
    rcases hx with hx | (rfl | hx) | (rfl | h0)
    · exact key_noNL k (by simpa [FieldOp.clean] using hc) x hx
    · omega
    · rcases mem_intersperse_flatten _ x hx with rfl | ⟨m, hm, hxm⟩
      · omega
      · simp only [List.mem_map] at hm
        obtain ⟨b, _, rfl⟩ := hm
        have := boolBytes_noNL b x hxm
        omega
    · omega
    · simp at h0
  | int64 k i =>
    simp only [opBytes, List.mem_append] at hx
    rcases hx with hx | hx
    · exact key_noNL k (by simpa [FieldOp.clean] using hc) x hx
    · have := appendInt_bounds i x hx
      omega
  | uint64 k u =>
    simp only [opBytes, List.mem_append] at hx
    rcases hx with hx | hx
    · exact key_noNL k (by simpa [FieldOp.clean] using hc) x hx
    · have := natDigitsF_bounds _ _ x hx
      omega
  | float64 k f =>
    simp only [opBytes, List.mem_append] at hx
    simp only [FieldOp.clean, Bool.and_eq_true] at hc
    rcases hx with hx | hx
    · exact key_noNL k hc.1 x hx
    · exact noNewline_mem f hc.2 x hx
  | floats64 k fs =>
    simp only [FieldOp.clean, Bool.and_eq_true] at hc
    simp only [opBytes, List.mem_append, List.mem_cons] at hx
    rcases hx with hx | (rfl | hx) | (rfl | h0)
    · exact key_noNL k hc.1 x hx
    · omega
    · rcases mem_intersperse_flatten _ x hx with rfl | ⟨m, hm, hxm⟩
      · omega
      · rw [List.all_eq_true] at hc
        exact noNewline_mem m (hc.2 m hm) x hxm
    · omega
    · simp at h0
  | str k v =>
    simp only [opBytes, List.mem_append] at hx
    rcases hx with hx | hx
    · exact key_noNL k (by simpa [FieldOp.clean] using hc) x hx
    · exact stringBytes_noNL v esc x hx
  | strs k vs =>
    simp only [opBytes, List.mem_append, List.mem_cons] at hx
    rcases hx with hx | (rfl | hx) | (rfl | h0)
    · exact key_noNL k (by simpa [FieldOp.clean] using hc) x hx
    · omega
    · rcases mem_intersperse_flatten _ x hx with rfl | ⟨m, hm, hxm⟩
      · omega
      · simp only [List.mem_map] at hm
        obtain ⟨v, _, rfl⟩ := hm
        exact stringBytes_noNL v esc x hxm
    · omega
    · simp at h0
  | bytes k v =>
    simp only [opBytes, List.mem_append] at hx
    rcases hx with hx | hx
    · exact key_noNL k (by simpa [FieldOp.clean] using hc) x hx
    · exact stringBytes_noNL v esc x hx
  | dur k d =>
    simp only [FieldOp.clean, Bool.and_eq_true] at hc
    simp only [opBytes, List.mem_append, List.mem_cons, List.mem_singleton] at hx
    rcases hx with hx | rfl | (hx | rfl | h0)
    · exact key_noNL k hc.1 x hx
    · omega
    · exact noNewline_mem d hc.2 x hx
    · omega
    · simp at h0
  | durs k ds =>
    simp only [FieldOp.clean, Bool.and_eq_true] at hc
    simp only [opBytes, List.mem_append, List.mem_cons] at hx
    rcases hx with hx | (rfl | hx) | (rfl | h0)
    · exact key_noNL k hc.1 x hx
    · omega
    · rcases mem_intersperse_flatten _ x hx with rfl | ⟨m, hm, hxm⟩
      · omega
      · simp only [List.mem_map] at hm
        obtain ⟨d, hd, rfl⟩ := hm
        simp only [List.mem_cons, List.mem_append, List.mem_singleton] at hxm
        rcases hxm with rfl | hxm | (rfl | h1)
        · omega
        · rw [List.all_eq_true] at hc
          exact noNewline_mem d (hc.2 d hd) x hxm
        · omega
        · simp at h1
    · omega
    · simp at h0
  | tm k t =>
    simp only [FieldOp.clean, Bool.and_eq_true] at hc
    simp only [opBytes, if_pos rfl, List.mem_append] at hx
    rcases hx with hx | hx
    · exact key_noNL k hc.1 x hx
    · have := time_noNL t hc.2 x hx
      omega
  | err m =>
    cases m with
    | none =>
      simp only [opBytes] at hx
      simp at hx
      omega
    | some msg =>
      simp only [opBytes, List.mem_append] at hx
      rcases hx with hx | hx
      · simp at hx
        omega
      · exact stringBytes_noNL msg esc x hx
  | errs k es =>
    simp only [opBytes, List.mem_append, List.mem_cons] at hx
    rcases hx with hx | (rfl | hx) | (rfl | h0)
    · exact key_noNL k (by simpa [FieldOp.clean] using hc) x hx
    · omega
    · rcases mem_intersperse_flatten _ x hx with rfl | ⟨m, hm, hxm⟩
      · omega
      · simp only [List.mem_map] at hm
        obtain ⟨e, _, rfl⟩ := hm
        cases e with
        | none =>
          simp at hxm
          omega
        | some msg => exact stringBytes_noNL msg esc x hxm
    · omega
    · simp at h0
  | rawJSON k r =>
    simp only [FieldOp.clean, Bool.and_eq_true] at hc
    simp only [opBytes, List.mem_append] at hx
    rcases hx with hx | hx
    · exact key_noNL k hc.1 x hx
    · exact noNewline_mem r hc.2 x hx
  | iface k r =>
    cases r with
    | error msg =>
      simp only [opBytes, List.mem_append] at hx
      rcases hx with hx | hx
      · exact key_noNL k (by simpa [FieldOp.clean] using hc) x hx
      · exact stringBytes_noNL _ esc x hx
    | ok m =>
      simp only [opBytes, List.mem_append] at hx
      rcases hx with hx | hx
      · exact key_noNL k (by simpa [FieldOp.clean] using hc) x hx
      · exact stringBytes_noNL m esc x hx
  | timestamp u =>
    simp only [opBytes, List.mem_append] at hx
    rcases hx with hx | hx
    · exact key_noNL _ (by decide) x hx
    · have := appendInt_bounds u x hx
      omega

theorem opsBytes_noNL (esc : Bool) (ops : List FieldOp)
    (hc : ∀ op ∈ ops, op.clean = true) (x : Nat)
    (hx : x ∈ opsBytes esc [] ops) : x ≠ 10 := by
  induction ops with
  | nil => simp [opsBytes] at hx
  | cons op ops ih =>
    rw [show opsBytes esc [] (op :: ops) = opBytes esc [] op ++ opsBytes esc [] ops from by
      simp [opsBytes]] at hx
    rw [List.mem_append] at hx
    rcases hx with hx | hx
    · exact opBytes_noNL esc op (hc op (by simp)) x hx
    · exact ih (fun o ho => hc o (by simp [ho])) hx

-- The full record line of a terminal Msg call, without the terminating
-- newline byte: everything the claim says may hold no raw newline.

/-- C8 counterexample: the claim promises no embedded raw newline other
than the terminating one for every active Event, but keys are appended
raw, so a key containing byte 10 puts a raw newline inside the record:
the single write of Msg contains byte 10 before its final position. -/
theorem record_newline_cx :
    (Event.Msg
        (applyOps
          ((Logger.mk 0 false false [] []).WithLevel 1
            (GoTime.mk 2008 1 8 17 5 5 0) none (fun f _ => f))
          [FieldOp.str [10] []])
        [] [] []).length = 1 ∧
    10 ∈ ((Event.Msg
        (applyOps
          ((Logger.mk 0 false false [] []).WithLevel 1
            (GoTime.mk 2008 1 8 17 5 5 0) none (fun f _ => f))
          [FieldOp.str [10] []])
        [] [] []).headD []).dropLast := by
  decide

/-- C8 (amended): with the default time field and format, a passing level
gate, a non-fatal level, a valid clock reading, a newline-free caller
file and newline-free raw byte segments in every field op, Send performs
exactly one write, of the full buffer closed by a brace and a newline;
Msg first appends the message header and the escaped message and does
the same; the write lays out the fields in order time, level, optional
caller, user fields in call order, optional message, and no byte of the
line except the terminating one is a raw newline. -/
theorem terminal_write_order_amended
    (l : Logger) (level : Nat) (now : GoTime)
    (ci : Option (List Nat × GoInt)) (afmt : List Nat → GoTime → List Nat)
    (ops : List FieldOp) (msg st1 st2 : List Nat)
    (hg : l.Level ≤ level) (hnf : level ≠ FatalLevel)
    (hf : l.TimeField = []) (htf : l.TimeFormat = [])
    (hclean : ∀ op ∈ ops, op.clean = true)
    (hnow : now.valid = true)
    (hci : ∀ f ln, ci = some (f, ln) → noNewline f = true) :
    Event.Send (applyOps (l.WithLevel level now ci afmt) ops) st1 st2 =
      [defaultTimeHeader ++ Event.time now ++ levelTag level ++
        (if l.Caller then callerBytes ci else []) ++
        opsBytes l.EscapeHTML [] ops ++ [125, 10]] ∧
    Event.Msg (applyOps (l.WithLevel level now ci afmt) ops) msg st1 st2 =
      [defaultTimeHeader ++ Event.time now ++ levelTag level ++
        (if l.Caller then callerBytes ci else []) ++
        opsBytes l.EscapeHTML [] ops ++
        messageHeader ++ stringBytes msg l.EscapeHTML ++ [125, 10]] ∧
    (∀ x ∈ defaultTimeHeader ++ Event.time now ++ levelTag level ++
        (if l.Caller then callerBytes ci else []) ++
        opsBytes l.EscapeHTML [] ops ++
        messageHeader ++ stringBytes msg l.EscapeHTML ++ [125], x ≠ 10) := by
  have hev := withLevel_pass l level now ci afmt hg hf htf
  have hfatal : (level == FatalLevel) = false := by
    simpa using hnf
  refine ⟨?_, ?_, ?_⟩
  · rw [hev, applyOps_some]
    simp only [Event.Send, hfatal, Bool.false_eq_true, if_false,
      List.append_nil, List.append_assoc]
  · rw [hev, applyOps_some]
    simp only [Event.Msg, hfatal, Bool.false_eq_true, if_false,
      List.append_nil, List.append_assoc]
  · intro x hx
    simp only [List.mem_append] at hx
    rcases hx with ((((((hx | hx) | hx) | hx) | hx) | hx) | hx) | hx
    · simp only [defaultTimeHeader, List.mem_cons, List.not_mem_nil,
        or_false] at hx
      rcases hx with rfl | rfl | rfl | rfl | rfl | rfl | rfl | rfl <;> omega
    · have := time_noNL now hnow x hx
      omega
    · have := levelTag_noNL level x hx
      omega
    · rcases hcl : l.Caller with _ | _
      · rw [hcl] at hx
        simp at hx
      · rw [hcl] at hx
        simp only [if_true] at hx
        exact callerBytes_noNL ci hci x hx
    · exact opsBytes_noNL l.EscapeHTML ops hclean x hx
    · simp only [messageHeader, List.mem_cons, List.not_mem_nil,
        or_false] at hx
      rcases hx with rfl | rfl | rfl | rfl | rfl | rfl | rfl | rfl | rfl |
        rfl | rfl <;> omega
    · exact stringBytes_noNL msg l.EscapeHTML x hx
    · simp only [List.mem_singleton] at hx
      omega

/-- C8 witness: the amended theorem applied to a concrete non-fatal info
record with two clean user fields and a message. -/
theorem terminal_write_order_amended_witness :
    (Logger.mk 0 false false [] []).Level ≤ 1 ∧
    (1 : Nat) ≠ FatalLevel ∧
    (∀ op ∈ [FieldOp.str [117, 115, 101, 114] [97, 110, 110],
        FieldOp.int64 [114] 3], op.clean = true) ∧
    (GoTime.mk 2008 1 8 17 5 5 0).valid = true ∧
    (Event.Send (applyOps ((Logger.mk 0 false false [] []).WithLevel 1
          (GoTime.mk 2008 1 8 17 5 5 0) none (fun f _ => f))
        [FieldOp.str [117, 115, 101, 114] [97, 110, 110],
          FieldOp.int64 [114] 3]) [] [] =
      [defaultTimeHeader ++ Event.time (GoTime.mk 2008 1 8 17 5 5 0) ++
        levelTag 1 ++
        (if (Logger.mk 0 false false [] []).Caller then callerBytes none
         else []) ++
        opsBytes (Logger.mk 0 false false [] []).EscapeHTML []
          [FieldOp.str [117, 115, 101, 114] [97, 110, 110],
            FieldOp.int64 [114] 3] ++ [125, 10]] ∧
    Event.Msg (applyOps ((Logger.mk 0 false false [] []).WithLevel 1
          (GoTime.mk 2008 1 8 17 5 5 0) none (fun f _ => f))
        [FieldOp.str [117, 115, 101, 114] [97, 110, 110],
          FieldOp.int64 [114] 3]) [108, 111, 103] [] [] =
      [defaultTimeHeader ++ Event.time (GoTime.mk 2008 1 8 17 5 5 0) ++
        levelTag 1 ++
        (if (Logger.mk 0 false false [] []).Caller then callerBytes none
         else []) ++
        opsBytes (Logger.mk 0 false false [] []).EscapeHTML []
          [FieldOp.str [117, 115, 101, 114] [97, 110, 110],
            FieldOp.int64 [114] 3] ++
        messageHeader ++
        stringBytes [108, 111, 103]
          (Logger.mk 0 false false [] []).EscapeHTML ++ [125, 10]] ∧
    (∀ x ∈ defaultTimeHeader ++ Event.time (GoTime.mk 2008 1 8 17 5 5 0) ++
        levelTag 1 ++
        (if (Logger.mk 0 false false [] []).Caller then callerBytes none
         else []) ++
        opsBytes (Logger.mk 0 false false [] []).EscapeHTML []
          [FieldOp.str [117, 115, 101, 114] [97, 110, 110],
            FieldOp.int64 [114] 3] ++
        messageHeader ++
        stringBytes [108, 111, 103]
          (Logger.mk 0 false false [] []).EscapeHTML ++ [125], x ≠ 10)) :=
  ⟨by decide, by decide, by decide, by decide,
    terminal_write_order_amended (Logger.mk 0 false false [] []) 1
      (GoTime.mk 2008 1 8 17 5 5 0) none (fun f _ => f)
      [FieldOp.str [117, 115, 101, 114] [97, 110, 110],
        FieldOp.int64 [114] 3] [108, 111, 103] [] []
      (by decide) (by decide) rfl rfl (by decide) (by decide)
      (fun f ln h => nomatch h)⟩
